import Mathlib

set_option maxRecDepth 100000

/-!
Verification development for `play_store_grossing.py`, a single-file scraper
that extracts a ranked list of app identifiers and titles from Play Store
collection HTML.  The Python source is shallowly embedded below: the two
regular expressions are modelled by an explicit backtracking matcher over
token lists (literals and single-character-class quantifiers, which is the
full generality those patterns use), and the pipeline functions
(`extract_apps`, `trim_entries`, `build_url`, `output_csv`, `output_json`,
the post-fetch part of `main`) are translated directly.
-/

namespace PlayStore

/-- A character-class test, as used by `[^...]` classes in the patterns. -/
abbrev CharClass := Char → Bool

/-- One token of the linear regular expressions used by the scraper:
either a literal (with a case-insensitivity flag, for `re.IGNORECASE`) or a
quantified single-character class (`min1 = true` for `+`, `false` for `*`;
`cap` marks the one capturing group). -/
inductive Tok where
  | lit (s : List Char) (ci : Bool)
  | cls (p : CharClass) (min1 : Bool) (cap : Bool)

/-- Case folding used for `re.IGNORECASE` on the ASCII literals of the
patterns. -/
def ciChar (c : Char) : Char := c.toLower

/-- Does the literal `l` (case-insensitively if `ci`) prefix the input? -/
def litMatch (ci : Bool) : List Char → List Char → Bool
  | [], _ => true
  | _ :: _, [] => false
  | a :: l, b :: s =>
    (if ci then ciChar a == ciChar b else a == b) && litMatch ci l s

/-- Length of the maximal run of characters satisfying `p` at the head of
the input: the most a greedy `[...]∗` or `[...]+` can consume. -/
def countWhile (p : CharClass) : List Char → Nat
  | [] => 0
  | c :: s => if p c then countWhile p s + 1 else 0

/-- Backtracking search: try `f` at `k`, `k-1`, ..., down to `lo`,
returning the first success.  Greedy quantifiers try longer consumptions
first, exactly as Python's backtracking engine does. -/
def searchDown (f : Nat → Option α) (lo : Nat) : Nat → Option α
  | 0 => if lo = 0 then f 0 else none
  | k + 1 =>
    if k + 1 < lo then none
    else
      match f (k + 1) with
      | some r => some r
      | none => searchDown f lo k

/-- Match a token sequence at the start of the input, Python-style
(leftmost, greedy with backtracking).  Returns the number of characters
consumed and the contents of the capturing group (empty if no capture
token was matched). -/
def matchToks : List Tok → List Char → Option (Nat × List Char)
  | [], _ => some (0, [])
  | .lit l ci :: rest, s =>
    if litMatch ci l s then
      match matchToks rest (s.drop l.length) with
      | some (n, g) => some (l.length + n, g)
      | none => none
    else none
  | .cls p min1 cap :: rest, s =>
    searchDown
      (fun k =>
        match matchToks rest (s.drop k) with
        | some (n, g) => some (k + n, if cap then s.take k else g)
        | none => none)
      (if min1 then 1 else 0) (countWhile p s)

/-- `re.finditer`: scan left to right, emitting non-overlapping matches
`(whole match, group 1)` and resuming after each match.  Fuel-driven so
that the function is structurally recursive (each step consumes at least
one character, so `length + 1` fuel always suffices). -/
def finditerAux (toks : List Tok) : Nat → List Char → List (List Char × List Char)
  | 0, _ => []
  | fuel + 1, s =>
    match matchToks toks s with
    | some (n, g) => (s.take n, g) :: finditerAux toks fuel (s.drop (max n 1))
    | none =>
      match s with
      | [] => []
      | _ :: t => finditerAux toks fuel t

/-- All matches of a token pattern in a string. -/
def finditer (toks : List Tok) (s : List Char) : List (List Char × List Char) :=
  finditerAux toks (s.length + 1) s

/-- `re.search`: group 1 of the leftmost match, if any. -/
def reSearchAux (toks : List Tok) : Nat → List Char → Option (List Char)
  | 0, _ => none
  | fuel + 1, s =>
    match matchToks toks s with
    | some (_, g) => some g
    | none =>
      match s with
      | [] => none
      | _ :: t => reSearchAux toks fuel t

/-- Leftmost-match search for a token pattern in a string. -/
def reSearch (toks : List Tok) (s : List Char) : Option (List Char) :=
  reSearchAux toks (s.length + 1) s

/-- `APP_LINK_RE`, compiled with `re.IGNORECASE`:
`<a[^>]+href="/store/apps/details?id=([^&"]+)[^"]*"[^>]*>[^<]*`. -/
def appLinkToks : List Tok :=
  [ .lit "<a".data true,
    .cls (fun c => c != '>') true false,
    .lit "href=\"/store/apps/details?id=".data true,
    .cls (fun c => c != '&' && c != '\"') true true,
    .cls (fun c => c != '\"') false false,
    .lit "\"".data true,
    .cls (fun c => c != '>') false false,
    .lit ">".data true,
    .cls (fun c => c != '<') false false ]

/-- `ARIA_LABEL_RE` (no ignore-case flag): `aria-label="([^"]+)"`. -/
def ariaLabelToks : List Tok :=
  [ .lit "aria-label=\"".data false,
    .cls (fun c => c != '\"') true true,
    .lit "\"".data false ]

/-- `APP_LINK_RE.finditer(html)`, as `(group 0, group 1)` pairs. -/
def APP_LINK_RE_finditer (html : String) : List (List Char × List Char) :=
  finditer appLinkToks html.data

/-- Whitespace predicate of Python's `str.isspace` (the characters that
`str.strip()` removes), restricted to the whitespace code points that
occur in practice: ASCII whitespace, the information separators
`0x1c`–`0x1f`, NEL, NBSP and the common Unicode space characters. -/
def pyIsSpace (c : Char) : Bool :=
  c == ' ' || (9 ≤ c.toNat && c.toNat ≤ 13) ||
    (28 ≤ c.toNat && c.toNat ≤ 31) || c.toNat == 0x85 || c.toNat == 0xa0 ||
    c.toNat == 0x1680 || (0x2000 ≤ c.toNat && c.toNat ≤ 0x200a) ||
    c.toNat == 0x2028 || c.toNat == 0x2029 || c.toNat == 0x202f ||
    c.toNat == 0x205f || c.toNat == 0x3000

/-- Python `str.strip()`: drop leading and trailing whitespace. -/
def pyStrip (s : List Char) : List Char :=
  ((s.dropWhile pyIsSpace).reverse.dropWhile pyIsSpace).reverse

/-- Python `chr` as used by `html.unescape` for numeric character
references: surrogates and out-of-range code points become U+FFFD. -/
def charFromCode (n : Nat) : Char :=
  if n < 0xd800 ∨ (0xdfff < n ∧ n < 0x110000) then Char.ofNat n else '�'

/-- Abridged version of the `html5` named-reference table used by
`html.unescape` (the full table has over two thousand entries; the
algorithm below treats this table exactly as Python treats the full one,
including the legacy entries with no trailing semicolon). -/
def namedRefs : List (String × String) :=
  [("amp;", "&"), ("amp", "&"), ("lt;", "<"), ("lt", "<"),
   ("gt;", ">"), ("gt", ">"), ("quot;", "\""), ("quot", "\""),
   ("apos;", "\x27"), ("nbsp;", " "), ("nbsp", " "),
   ("copy;", "©"), ("copy", "©"), ("reg;", "®"), ("reg", "®"),
   ("trade;", "™"), ("hellip;", "…"), ("mdash;", "—"),
   ("ndash;", "–"), ("middot;", "·"), ("middot", "·"),
   ("bull;", "•"), ("dagger;", "†"), ("sect;", "§"), ("sect", "§")]

/-- Look a matched reference text up in the named-reference table. -/
def lookupRef (s : List Char) : Option (List Char) :=
  (namedRefs.find? (fun kv => kv.1.data == s)).map (fun kv => kv.2.data)

/-- Longest proper prefix of length at least 2 of the matched text that is
a known reference (Python's fallback when the whole match is unknown). -/
def longestRef : Nat → List Char → Option (List Char × List Char)
  | 0, _ => none
  | x + 1, s =>
    if x + 1 < 2 then none
    else
      match lookupRef (s.take (x + 1)) with
      | some r => some (r, s.drop (x + 1))
      | none => longestRef x s

/-- A character allowed inside a named reference name
(`[^\t\n\f <&#;]`). -/
def refNameChar (c : Char) : Bool :=
  !(c == '\t' || c == '\n' || c.toNat == 12 || c == ' ' ||
    c == '<' || c == '&' || c == '#' || c == ';')

/-- Hexadecimal digit value, if any. -/
def hexVal (c : Char) : Option Nat :=
  if '0' ≤ c ∧ c ≤ '9' then some (c.toNat - '0'.toNat)
  else if 'a' ≤ c ∧ c ≤ 'f' then some (c.toNat - 'a'.toNat + 10)
  else if 'A' ≤ c ∧ c ≤ 'F' then some (c.toNat - 'A'.toNat + 10)
  else none

/-- Numeric value of a digit run (most significant first). -/
def decOfDigits (ds : List Char) : Nat :=
  ds.foldl (fun a c => a * 10 + (c.toNat - '0'.toNat)) 0

/-- Numeric value of a hex-digit run (most significant first). -/
def hexOfDigits (ds : List Char) : Nat :=
  ds.foldl (fun a c => a * 16 + ((hexVal c).getD 0)) 0

/-- Try to read one character reference right after a `&`, following the
pattern `#[0-9]+;?` | `#[xX][0-9a-fA-F]+;?` | `[^\t\n\f <&#;]{1,32};?` and
Python's `_replace_charref`.  Returns the replacement text and the rest of
the input after the matched reference. -/
def tryCharref (s : List Char) : Option (List Char × List Char) :=
  match s with
  | '#' :: t =>
    match t with
    | x :: t' =>
      if x == 'x' || x == 'X' then
        let ds := t'.takeWhile (fun c => (hexVal c).isSome)
        if ds.isEmpty then none
        else
          let rest := t'.drop ds.length
          let rest := match rest with | ';' :: r => r | r => r
          some ([charFromCode (hexOfDigits ds)], rest)
      else
        let ds := t.takeWhile Char.isDigit
        if ds.isEmpty then none
        else
          let rest := t.drop ds.length
          let rest := match rest with | ';' :: r => r | r => r
          some ([charFromCode (decOfDigits ds)], rest)
    | [] => none
  | _ =>
    let name := (s.takeWhile refNameChar).take 32
    if name.isEmpty then none
    else
      let afterName := s.drop name.length
      let (txt, rest) :=
        match afterName with
        | ';' :: r => (name ++ [';'], r)
        | r => (name, r)
      match lookupRef txt with
      | some repl => some (repl, rest)
      | none =>
        match longestRef (txt.length - 1) txt with
        | some (repl, leftover) => some (repl ++ leftover, rest)
        | none => some ('&' :: txt, rest)

/-- Fuel-driven scan of `html.unescape`: replace each character reference,
leave everything else untouched. -/
def unescapeAux : Nat → List Char → List Char
  | 0, s => s
  | _, [] => []
  | fuel + 1, c :: rest =>
    if c == '&' then
      match tryCharref rest with
      | some (repl, remaining) => repl ++ unescapeAux fuel remaining
      | none => '&' :: unescapeAux fuel rest
    else c :: unescapeAux fuel rest

/-- Python `html.unescape` (with the abridged reference table above). -/
def unescape (s : List Char) : List Char := unescapeAux s.length s

/-- The Ranked Entry data model: `@dataclass class AppEntry`. -/
structure AppEntry where
  rank : Nat
  app_id : String
  title : String
deriving DecidableEq, Repr

/-- Title recovery for one matched anchor: search `ARIA_LABEL_RE` inside
the full matched markup; on a hit, unescape and strip the attribute value,
otherwise the empty string (line 66–67 of the source). -/
def anchorTitle (anchor : List Char) : String :=
  match reSearch ariaLabelToks anchor with
  | some v => String.mk (pyStrip (unescape v))
  | none => ""

/-- The `for match in APP_LINK_RE.finditer(html)` loop of `extract_apps`,
with the accumulated entries and the `seen` set made explicit. -/
def extractLoop : List (List Char × List Char) → List AppEntry → List String → List AppEntry
  | [], entries, _ => entries
  | (anchor, idTok) :: ms, entries, seen =>
    let app_id := String.mk idTok
    if app_id ∈ seen then extractLoop ms entries seen
    else
      extractLoop ms
        (entries ++ [{ rank := entries.length + 1, app_id := app_id, title := anchorTitle anchor }])
        (app_id :: seen)

/-- `extract_apps(html)` (lines 57–71 of the source). -/
def extract_apps (html : String) : List AppEntry :=
  extractLoop (APP_LINK_RE_finditer html) [] []

/-- The index CPython computes for the stop bound of `entries[:limit]`:
negative stops count from the end, then the result is clamped to
`[0, len]`. -/
def pySliceStop (len : Nat) (stop : Int) : Nat :=
  (min (max (if stop < 0 then stop + len else stop) 0) (len : Int)).toNat

/-- `trim_entries(entries, limit)` (lines 74–77): `entries` when `limit` is
`None`, else the Python slice `entries[:limit]`. -/
def trim_entries (entries : List AppEntry) (limit : Option Int) : List AppEntry :=
  match limit with
  | none => entries
  | some n => entries.take (pySliceStop entries.length n)

/-- The fixed endpoint (`BASE_URL` in the source). -/
def BASE_URL : String := "https://play.google.com/store/apps/collection/topgrossing"

/-- UTF-8 encoding of one character, as byte values. -/
def utf8Bytes (c : Char) : List Nat :=
  let n := c.toNat
  if n < 0x80 then [n]
  else if n < 0x800 then [0xc0 + n / 0x40, 0x80 + n % 0x40]
  else if n < 0x10000 then
    [0xe0 + n / 0x1000, 0x80 + (n / 0x40) % 0x40, 0x80 + n % 0x40]
  else
    [0xf0 + n / 0x40000, 0x80 + (n / 0x1000) % 0x40, 0x80 + (n / 0x40) % 0x40,
     0x80 + n % 0x40]

/-- Upper-case hexadecimal digit (percent-encoding uses upper case). -/
def hexDigitUpper (n : Nat) : Char :=
  if n < 10 then Char.ofNat ('0'.toNat + n) else Char.ofNat ('A'.toNat + n - 10)

/-- Percent-encode one byte. -/
def pctByte (b : Nat) : List Char := ['%', hexDigitUpper (b / 16), hexDigitUpper (b % 16)]

/-- `urllib.parse.quote_plus` with empty `safe`, per character: space
becomes `+`, unreserved ASCII passes through, everything else is
percent-encoded byte-wise in UTF-8. -/
def quotePlusChar (c : Char) : List Char :=
  if c == ' ' then ['+']
  else if c.isAlphanum || c == '_' || c == '.' || c == '-' || c == '~' then [c]
  else (utf8Bytes c).flatMap pctByte

/-- `urllib.parse.quote_plus` on a whole string. -/
def quote_plus (s : String) : String := String.mk (s.data.flatMap quotePlusChar)

/-- `urllib.parse.urlencode`: `k=v` pairs joined by `&`, values quoted. -/
def urlencode : List (String × String) → String
  | [] => ""
  | [p] => p.1 ++ "=" ++ quote_plus p.2
  | p :: q :: rest => p.1 ++ "=" ++ quote_plus p.2 ++ "&" ++ urlencode (q :: rest)

/-- `build_url(language, region, category)` (lines 33–40): the `category`
parameter is attached only when the Python value is truthy, i.e. present
and non-empty. -/
def build_url (language region : String) (category : Option String) : String :=
  let params :=
    [("hl", language), ("gl", region)] ++
      (match category with
       | some c => if c.isEmpty then [] else [("category", c)]
       | none => [])
  BASE_URL ++ "?" ++ urlencode params

/-- Decimal digits of a natural number, most significant first, with
explicit fuel (`natToDec n` runs it with fuel `n`, which always
suffices). -/
def natToDecAux : Nat → Nat → List Char
  | 0, n => [Nat.digitChar (n % 10)]
  | fuel + 1, n =>
    if n < 10 then [Nat.digitChar n]
    else natToDecAux fuel (n / 10) ++ [Nat.digitChar (n % 10)]

/-- Python `str` on a non-negative integer. -/
def natToDec (n : Nat) : List Char := natToDecAux n n

/-- Join character chunks with a separator (`sep.join(...)`). -/
def joinSep (sep : List Char) : List (List Char) → List Char
  | [] => []
  | [x] => x
  | x :: y :: xs => x ++ sep ++ joinSep sep (y :: xs)

/-- Does `csv.writer` (QUOTE_MINIMAL) have to quote this field? -/
def csvQuoteNeeded (f : List Char) : Bool :=
  f.any (fun c => c == ',' || c == '\"' || c == '\r' || c == '\n')

/-- Double every quote character inside a quoted CSV field. -/
def csvEscapeChars (f : List Char) : List Char :=
  f.flatMap (fun c => if c == '\"' then ['\"', '\"'] else [c])

/-- One CSV field, quoted minimally as the `excel` dialect does. -/
def csvFieldL (f : List Char) : List Char :=
  if csvQuoteNeeded f then '\"' :: (csvEscapeChars f ++ ['\"']) else f

/-- One CSV record: fields joined by `,`, terminated by CRLF. -/
def csvRowL (fs : List (List Char)) : List Char :=
  joinSep [','] (fs.map csvFieldL) ++ ['\r', '\n']

/-- `output_csv(entries)` (lines 80–84): header row then one row per
entry, written to standard output. -/
def output_csv (entries : List AppEntry) : String :=
  String.mk (csvRowL ["rank".data, "app_id".data, "title".data] ++
    (entries.map (fun e => csvRowL [natToDec e.rank, e.app_id.data, e.title.data])).flatten)

/-- Lower-case hexadecimal digit (JSON `\u00xx` escapes use lower case). -/
def hexDigitLower (n : Nat) : Char :=
  if n < 10 then Char.ofNat ('0'.toNat + n) else Char.ofNat ('a'.toNat + n - 10)

/-- JSON string escaping with `ensure_ascii=False`: only the quote, the
backslash and control characters are escaped. -/
def jsonEscapeChar (c : Char) : List Char :=
  if c == '\"' then ['\\', '\"']
  else if c == '\\' then ['\\', '\\']
  else if c == '\n' then ['\\', 'n']
  else if c == '\r' then ['\\', 'r']
  else if c == '\t' then ['\\', 't']
  else if c.toNat == 8 then ['\\', 'b']
  else if c.toNat == 12 then ['\\', 'f']
  else if c.toNat < 0x20 then
    ['\\', 'u', '0', '0', hexDigitLower (c.toNat / 16), hexDigitLower (c.toNat % 16)]
  else [c]

/-- A JSON string literal for `s`. -/
def jsonStrL (s : List Char) : List Char :=
  '\"' :: (s.flatMap jsonEscapeChar ++ ['\"'])

/-- One entry as `json.dump` renders it at nesting level 1 with
`indent=2`: keys in insertion order `rank`, `app_id`, `title`. -/
def jsonEntryL (e : AppEntry) : List Char :=
  "\x7b\n    \"rank\": ".data ++ natToDec e.rank ++
    ",\n    \"app_id\": ".data ++ jsonStrL e.app_id.data ++
    ",\n    \"title\": ".data ++ jsonStrL e.title.data ++ "\n  \x7d".data

/-- `output_json(entries)` (lines 87–93): `json.dump(..., ensure_ascii=False,
indent=2)` followed by the explicit trailing newline. -/
def output_json (entries : List AppEntry) : String :=
  String.mk
    ((if entries.isEmpty then "[]".data
      else "[\n  ".data ++ joinSep ",\n  ".data (entries.map jsonEntryL) ++ "\n]".data) ++
      ['\n'])

/-- Observable outcome of one run: what was written to the two streams and
the process exit status. -/
structure RunResult where
  stdout : String
  stderr : String
  exitCode : Nat
deriving DecidableEq, Repr

/-- The post-fetch part of `main()` (lines 121–135), as a function of the
fetched HTML and the parsed options (`argparse` always supplies an integer
`--limit`, default 50): trim the extraction, emit it in the requested
format, then return status 1 with a diagnostic when the emitted list is
empty and status 0 otherwise. -/
def mainOn (html : String) (limit : Int) (useJson : Bool) : RunResult :=
  let entries := trim_entries (extract_apps html) (some limit)
  let out := if useJson then output_json entries else output_csv entries
  if entries.isEmpty then
    { stdout := out, stderr := "No entries found. HTML structure may have changed.\n",
      exitCode := 1 }
  else
    { stdout := out, stderr := "", exitCode := 0 }

/-! ### Lemmas about the matcher -/

/-- Whether a token is the capturing group. -/
def capOf : Tok → Bool
  | .lit _ _ => false
  | .cls _ _ c => c

/-- Whether a token must consume at least one character. -/
def minOf : Tok → Bool
  | .lit _ _ => true
  | .cls _ m _ => m

theorem searchDown_eq_some {α : Type} {f : Nat → Option α} {r : α} :
    ∀ {k lo : Nat}, searchDown f lo k = some r → ∃ j, lo ≤ j ∧ j ≤ k ∧ f j = some r := by
  intro k
  induction k with
  | zero =>
    intro lo h
    by_cases hlo : lo = 0
    · subst hlo
      simp only [searchDown, if_pos rfl] at h
      exact ⟨0, Nat.le_refl 0, Nat.le_refl 0, h⟩
    · simp only [searchDown, if_neg hlo] at h
      cases h
  | succ k ih =>
    intro lo h
    by_cases hlt : k + 1 < lo
    · simp only [searchDown, if_pos hlt] at h
      cases h
    · simp only [searchDown, if_neg hlt] at h
      cases hf : f (k + 1) with
      | some v =>
        rw [hf] at h
        cases h
        exact ⟨k + 1, by omega, Nat.le_refl _, hf⟩
      | none =>
        rw [hf] at h
        obtain ⟨j, h1, h2, h3⟩ := ih h
        exact ⟨j, h1, Nat.le_succ_of_le h2, h3⟩

theorem countWhile_le_length {p : CharClass} : ∀ s : List Char, countWhile p s ≤ s.length := by
  intro s
  induction s with
  | nil => simp [countWhile]
  | cons c t ih =>
    simp only [countWhile, List.length_cons]
    split
    · omega
    · omega

/-- In a successful match of a token list whose capturing tokens all carry
`+` quantifiers and which contains a capturing token, the captured group is
non-empty. -/
theorem matchToks_group_ne_nil :
    ∀ (toks : List Tok), (∀ t ∈ toks, capOf t = true → minOf t = true) →
      (∃ t ∈ toks, capOf t = true) →
      ∀ s n g, matchToks toks s = some (n, g) → g ≠ [] := by
  intro toks
  induction toks with
  | nil =>
    intro _ hcap
    obtain ⟨t, ht, _⟩ := hcap
    cases ht
  | cons t rest ih =>
    intro hmin hcap s n g h
    have hmin' : ∀ u ∈ rest, capOf u = true → minOf u = true :=
      fun u hu => hmin u (List.mem_cons_of_mem _ hu)
    cases t with
    | lit l ci =>
      simp only [matchToks] at h
      split at h
      · cases hm : matchToks rest (s.drop l.length) with
        | none => rw [hm] at h; cases h
        | some q =>
          obtain ⟨n', g'⟩ := q
          rw [hm] at h
          simp only [Option.some.injEq, Prod.mk.injEq] at h
          obtain ⟨-, hg⟩ := h
          subst hg
          refine ih hmin' ?_ _ _ _ hm
          obtain ⟨u, hu, hcu⟩ := hcap
          rcases List.mem_cons.mp hu with rfl | hu'
          · simp [capOf] at hcu
          · exact ⟨u, hu', hcu⟩
      · cases h
    | cls p min1 cap =>
      simp only [matchToks] at h
      obtain ⟨j, hjlo, hjhi, hfj⟩ := searchDown_eq_some h
      cases hm : matchToks rest (s.drop j) with
      | none => rw [hm] at hfj; cases hfj
      | some q =>
        obtain ⟨n', g'⟩ := q
        rw [hm] at hfj
        simp only [Option.some.injEq, Prod.mk.injEq] at hfj
        obtain ⟨-, hg⟩ := hfj
        cases hc : cap with
        | false =>
          rw [hc] at hg
          simp only [Bool.false_eq_true, if_false] at hg
          subst hg
          refine ih hmin' ?_ _ _ _ hm
          obtain ⟨u, hu, hcu⟩ := hcap
          rcases List.mem_cons.mp hu with rfl | hu'
          · simp [capOf, hc] at hcu
          · exact ⟨u, hu', hcu⟩
        | true =>
          rw [hc] at hg
          simp only [if_true] at hg
          have hm1 : minOf (Tok.cls p min1 cap) = true :=
            hmin (Tok.cls p min1 cap) (List.mem_cons_self _ _) (by simp [capOf, hc])
          simp only [minOf] at hm1
          rw [hm1] at hjlo
          simp only [if_true] at hjlo
          have hs : 1 ≤ s.length :=
            Nat.le_trans hjlo (Nat.le_trans hjhi (countWhile_le_length s))
          subst hg
          intro hnil
          have := List.take_eq_nil_iff.mp hnil
          rcases this with h0 | h0
          · omega
          · rw [h0] at hs; simp at hs

/-- Every match emitted by `finditer` comes from a successful `matchToks`
somewhere in the input. -/
theorem finditerAux_group {toks : List Tok} :
    ∀ fuel s m, m ∈ finditerAux toks fuel s →
      ∃ s' n, matchToks toks s' = some (n, m.2) := by
  intro fuel
  induction fuel with
  | zero => intro s m hm; cases hm
  | succ fuel ih =>
    intro s m hm
    simp only [finditerAux] at hm
    cases hmt : matchToks toks s with
    | some q =>
      obtain ⟨n, g⟩ := q
      rw [hmt] at hm
      rcases List.mem_cons.mp hm with rfl | hm'
      · exact ⟨s, n, hmt⟩
      · exact ih _ _ hm'
    | none =>
      rw [hmt] at hm
      cases s with
      | nil => cases hm
      | cons c t => exact ih _ _ hm

/-- The capturing group of every `APP_LINK_RE` match (`[^&"]+`) is
non-empty. -/
theorem appLink_match_group_ne_nil {s : List Char} {n : Nat} {g : List Char}
    (h : matchToks appLinkToks s = some (n, g)) : g ≠ [] := by
  refine matchToks_group_ne_nil appLinkToks ?_ ?_ s n g h
  · intro t ht
    simp only [appLinkToks, List.mem_cons, List.not_mem_nil, or_false] at ht
    rcases ht with rfl | rfl | rfl | rfl | rfl | rfl | rfl | rfl | rfl
    all_goals intro hc
    all_goals simp_all [capOf, minOf]
  · refine ⟨Tok.cls (fun c => c != '&' && c != '\"') true true, ?_, rfl⟩
    simp [appLinkToks]

/-- The identifier of every match in `APP_LINK_RE_finditer` is a non-empty
string. -/
theorem finditer_appLink_id_ne_nil {html : String} {m : List Char × List Char}
    (hm : m ∈ APP_LINK_RE_finditer html) : m.2 ≠ [] := by
  obtain ⟨s', n, h⟩ := finditerAux_group _ _ _ hm
  exact appLink_match_group_ne_nil h

/-! ### Lemmas about the extraction loop -/

/-- The identifier tokens of a match list, as strings. -/
def idsOf (ms : List (List Char × List Char)) : List String :=
  ms.map (fun m => String.mk m.2)

/-- First-occurrence de-duplication of a list of identifiers relative to an
already-seen set: what the `seen`-set logic of `extract_apps` keeps. -/
def firstIds : List String → List String → List String
  | [], _ => []
  | i :: is, seen =>
    if i ∈ seen then firstIds is seen else i :: firstIds is (i :: seen)

theorem mem_firstIds {i : String} :
    ∀ {is seen : List String}, i ∈ firstIds is seen → i ∈ is ∧ i ∉ seen := by
  intro is
  induction is with
  | nil => intro seen h; cases h
  | cons j is ih =>
    intro seen h
    simp only [firstIds] at h
    split at h
    · have := ih h
      exact ⟨List.mem_cons_of_mem _ this.1, this.2⟩
    · rcases List.mem_cons.mp h with rfl | h'
      · exact ⟨List.mem_cons_self _ _, by assumption⟩
      · have := ih h'
        refine ⟨List.mem_cons_of_mem _ this.1, fun hseen => this.2 ?_⟩
        exact List.mem_cons_of_mem _ hseen

theorem mem_firstIds_of_mem {i : String} :
    ∀ {is seen : List String}, i ∈ is → i ∉ seen → i ∈ firstIds is seen := by
  intro is
  induction is with
  | nil => intro seen h; cases h
  | cons j is ih =>
    intro seen h hseen
    simp only [firstIds]
    rcases List.mem_cons.mp h with rfl | h'
    · rw [if_neg hseen]
      exact List.mem_cons_self _ _
    · split
      · exact ih h' hseen
      · by_cases hij : i = j
        · subst hij; exact List.mem_cons_self _ _
        · refine List.mem_cons_of_mem _ (ih h' ?_)
          intro hc
          rcases List.mem_cons.mp hc with h0 | h0
          · exact hij h0
          · exact hseen h0

theorem firstIds_nodup : ∀ (is seen : List String), (firstIds is seen).Nodup := by
  intro is
  induction is with
  | nil => intro seen; simp [firstIds]
  | cons j is ih =>
    intro seen
    simp only [firstIds]
    split
    · exact ih seen
    · refine List.nodup_cons.mpr ⟨?_, ih (j :: seen)⟩
      intro hc
      exact (mem_firstIds hc).2 (List.mem_cons_self _ _)

theorem firstIds_of_nodup :
    ∀ (is seen : List String), is.Nodup → (∀ i ∈ is, i ∉ seen) → firstIds is seen = is := by
  intro is
  induction is with
  | nil => intro seen _ _; rfl
  | cons j is ih =>
    intro seen hnd hdisj
    simp only [firstIds]
    rw [if_neg (hdisj j (List.mem_cons_self _ _))]
    congr 1
    refine ih (j :: seen) (List.nodup_cons.mp hnd).2 ?_
    intro i hi hc
    rcases List.mem_cons.mp hc with rfl | h0
    · exact (List.nodup_cons.mp hnd).1 hi
    · exact hdisj i (List.mem_cons_of_mem _ hi) h0

theorem firstIds_length_le : ∀ (is seen : List String), (firstIds is seen).length ≤ is.length := by
  intro is
  induction is with
  | nil => intro seen; simp [firstIds]
  | cons j is ih =>
    intro seen
    simp only [firstIds]
    split
    · exact Nat.le_succ_of_le (ih seen)
    · simpa using Nat.succ_le_succ (ih (j :: seen))

/-- The identifiers of the extracted entries: the accumulated ones followed
by the first occurrences of the not-yet-seen identifiers of the remaining
matches. -/
theorem extractLoop_map_app_id :
    ∀ (ms : List (List Char × List Char)) (entries : List AppEntry) (seen : List String),
      (extractLoop ms entries seen).map AppEntry.app_id =
        entries.map AppEntry.app_id ++ firstIds (idsOf ms) seen := by
  intro ms
  induction ms with
  | nil => intro entries seen; simp [extractLoop, idsOf, firstIds]
  | cons m ms ih =>
    intro entries seen
    obtain ⟨a, g⟩ := m
    simp only [extractLoop, idsOf, List.map_cons, firstIds]
    split
    · rw [ih]
      rfl
    · rw [ih]
      simp [idsOf]

/-- If the accumulated ranks are `1..len` in order, they stay that way as
the loop appends entries with rank `len + 1`. -/
theorem extractLoop_map_rank :
    ∀ (ms : List (List Char × List Char)) (entries : List AppEntry) (seen : List String),
      entries.map AppEntry.rank = List.range' 1 entries.length →
      (extractLoop ms entries seen).map AppEntry.rank =
        List.range' 1 (extractLoop ms entries seen).length := by
  intro ms
  induction ms with
  | nil => intro entries seen h; simpa [extractLoop] using h
  | cons m ms ih =>
    intro entries seen h
    obtain ⟨a, g⟩ := m
    simp only [extractLoop]
    split
    · exact ih entries seen h
    · refine ih _ _ ?_
      rw [List.map_append, h]
      simp [List.range'_concat, Nat.add_comm]

/-- The loop only ever appends to the accumulated entry list. -/
theorem extractLoop_appends :
    ∀ (ms : List (List Char × List Char)) (entries : List AppEntry) (seen : List String),
      ∃ tail, extractLoop ms entries seen = entries ++ tail := by
  intro ms
  induction ms with
  | nil => intro entries seen; exact ⟨[], by simp [extractLoop]⟩
  | cons m ms ih =>
    intro entries seen
    obtain ⟨a, g⟩ := m
    simp only [extractLoop]
    split
    · exact ih entries seen
    · obtain ⟨tail, htail⟩ :=
        ih
          (entries ++
            [({ rank := entries.length + 1, app_id := String.mk g,
                title := anchorTitle a } : AppEntry)])
          (String.mk g :: seen)
      exact ⟨_, by rw [htail, List.append_assoc]⟩

/-- A match whose identifier has not occurred before (neither among the
earlier matches nor in the seen set) contributes an entry with exactly its
identifier and its anchor-derived title. -/
theorem extractLoop_mem_first :
    ∀ (pre : List (List Char × List Char)) (a g : List Char)
      (post : List (List Char × List Char)) (entries : List AppEntry) (seen : List String),
      String.mk g ∉ idsOf pre → String.mk g ∉ seen →
      ∃ e ∈ extractLoop (pre ++ (a, g) :: post) entries seen,
        e.app_id = String.mk g ∧ e.title = anchorTitle a := by
  intro pre
  induction pre with
  | nil =>
    intro a g post entries seen _ hseen
    simp only [List.nil_append, extractLoop]
    rw [if_neg hseen]
    obtain ⟨tail, htail⟩ :=
      extractLoop_appends post
        (entries ++
          [({ rank := entries.length + 1, app_id := String.mk g,
              title := anchorTitle a } : AppEntry)])
        (String.mk g :: seen)
    refine ⟨{ rank := entries.length + 1, app_id := String.mk g, title := anchorTitle a }, ?_, rfl, rfl⟩
    rw [htail]
    simp
  | cons m pre ih =>
    intro a g post entries seen hpre hseen
    obtain ⟨a', g'⟩ := m
    have hne : String.mk g ≠ String.mk g' := by
      intro hc
      exact hpre (by simp [idsOf, hc])
    have hpre' : String.mk g ∉ idsOf pre := by
      intro hc
      exact hpre (by simp [idsOf] at hc ⊢; right; exact hc)
    simp only [List.cons_append, extractLoop]
    split
    · exact ih a g post entries seen hpre' hseen
    · refine ih a g post _ (String.mk g' :: seen) hpre' ?_
      intro hc
      rcases List.mem_cons.mp hc with h0 | h0
      · exact hne h0
      · exact hseen h0

/-! ### Claim theorems: extraction -/

/-- A small page fragment with two well-formed anchors carrying distinct
identifiers. -/
def twoAnchorHtml : String :=
  "<a href=\"/store/apps/details?id=com.one\" aria-label=\"One\">x</a><a class=\"c\" href=\"/store/apps/details?id=com.two\">y</a>"

/-- C1: on input whose matching anchors carry pairwise-distinct identifier
tokens, `extract_apps` returns one entry per match, in document order, with
ranks exactly `1..N`. -/
theorem extract_apps_distinct_anchors (html : String)
    (h : (idsOf (APP_LINK_RE_finditer html)).Nodup) :
    (extract_apps html).length = (APP_LINK_RE_finditer html).length ∧
    (extract_apps html).map AppEntry.app_id = idsOf (APP_LINK_RE_finditer html) ∧
    (extract_apps html).map AppEntry.rank =
      List.range' 1 ((APP_LINK_RE_finditer html).length) := by
  have hid := extractLoop_map_app_id (APP_LINK_RE_finditer html) [] []
  rw [firstIds_of_nodup _ _ h (by simp)] at hid
  simp only [List.map_nil, List.nil_append] at hid
  have hid' : (extract_apps html).map AppEntry.app_id = idsOf (APP_LINK_RE_finditer html) := hid
  have hlen : (extract_apps html).length = (APP_LINK_RE_finditer html).length := by
    have hl := congrArg List.length hid'
    simpa [idsOf] using hl
  refine ⟨hlen, hid', ?_⟩
  have hrank := extractLoop_map_rank (APP_LINK_RE_finditer html) [] [] (by simp)
  have hrank' : (extract_apps html).map AppEntry.rank =
      List.range' 1 ((extract_apps html).length) := hrank
  rw [hlen] at hrank'
  exact hrank'

theorem extract_apps_distinct_anchors_witness :
    (idsOf (APP_LINK_RE_finditer twoAnchorHtml)).Nodup ∧
    ((extract_apps twoAnchorHtml).length = (APP_LINK_RE_finditer twoAnchorHtml).length ∧
      (extract_apps twoAnchorHtml).map AppEntry.app_id = idsOf (APP_LINK_RE_finditer twoAnchorHtml) ∧
      (extract_apps twoAnchorHtml).map AppEntry.rank =
        List.range' 1 ((APP_LINK_RE_finditer twoAnchorHtml).length)) :=
  ⟨by decide, extract_apps_distinct_anchors twoAnchorHtml (by decide)⟩

/-- A page fragment in which the identifier `com.one` occurs in two
anchors, with another identifier between the two occurrences. -/
def dupAnchorHtml : String :=
  "<a href=\"/store/apps/details?id=com.one\" aria-label=\"One\">x</a><a href=\"/store/apps/details?id=com.two\">y</a><a href=\"/store/apps/details?id=com.one\">z</a>"

/-- C2: a duplicated identifier yields exactly one entry, placed at its
first occurrence (the output identifiers are the first-occurrence
de-duplication of the match identifiers), and ranks remain dense `1..len`
over the kept entries. -/
theorem extract_apps_duplicate_collapse (html : String) (i : String)
    (h : 2 ≤ (idsOf (APP_LINK_RE_finditer html)).count i) :
    ((extract_apps html).map AppEntry.app_id).count i = 1 ∧
    (extract_apps html).map AppEntry.app_id =
      firstIds (idsOf (APP_LINK_RE_finditer html)) [] ∧
    (extract_apps html).map AppEntry.rank =
      List.range' 1 ((extract_apps html).length) := by
  have hid : (extract_apps html).map AppEntry.app_id =
      firstIds (idsOf (APP_LINK_RE_finditer html)) [] := by
    have := extractLoop_map_app_id (APP_LINK_RE_finditer html) [] []
    simpa using this
  refine ⟨?_, hid, ?_⟩
  · rw [hid]
    refine List.count_eq_one_of_mem (firstIds_nodup _ _) ?_
    refine mem_firstIds_of_mem ?_ (List.not_mem_nil i)
    exact List.count_pos_iff.mp (by omega)
  · exact extractLoop_map_rank (APP_LINK_RE_finditer html) [] [] (by simp)

theorem extract_apps_duplicate_collapse_witness :
    2 ≤ (idsOf (APP_LINK_RE_finditer dupAnchorHtml)).count "com.one" ∧
    (((extract_apps dupAnchorHtml).map AppEntry.app_id).count "com.one" = 1 ∧
      (extract_apps dupAnchorHtml).map AppEntry.app_id =
        firstIds (idsOf (APP_LINK_RE_finditer dupAnchorHtml)) [] ∧
      (extract_apps dupAnchorHtml).map AppEntry.rank =
        List.range' 1 ((extract_apps dupAnchorHtml).length)) :=
  ⟨by decide, extract_apps_duplicate_collapse dupAnchorHtml "com.one" (by decide)⟩

/-- C4: unconditionally, the extracted list has ranks `1, 2, ...` in output
order, non-empty identifiers, and pairwise-distinct identifiers. -/
theorem extract_apps_invariants (html : String) :
    (extract_apps html).map AppEntry.rank = List.range' 1 ((extract_apps html).length) ∧
    (∀ e ∈ extract_apps html, e.app_id ≠ "") ∧
    ((extract_apps html).map AppEntry.app_id).Nodup := by
  have hid : (extract_apps html).map AppEntry.app_id =
      firstIds (idsOf (APP_LINK_RE_finditer html)) [] := by
    have := extractLoop_map_app_id (APP_LINK_RE_finditer html) [] []
    simpa using this
  refine ⟨extractLoop_map_rank (APP_LINK_RE_finditer html) [] [] (by simp), ?_, ?_⟩
  · intro e he
    have hmem : e.app_id ∈ (extract_apps html).map AppEntry.app_id :=
      List.mem_map_of_mem _ he
    rw [hid] at hmem
    have hmem' : e.app_id ∈ idsOf (APP_LINK_RE_finditer html) := (mem_firstIds hmem).1
    obtain ⟨m, hm, hmi⟩ := List.mem_map.mp hmem'
    intro hc
    have : m.2 = [] := by
      have := congrArg String.data (hmi.trans hc)
      simpa using this
    exact finditer_appLink_id_ne_nil hm this
  · rw [hid]
    exact firstIds_nodup _ _

/-- C5: every first-occurrence match contributes an entry whose title is
the unescaped, stripped `aria-label` value when that attribute occurs in
the matched anchor markup, and the empty string otherwise — in particular
an anchor without the attribute still yields its entry. -/
theorem extract_apps_title_of_anchor (html : String) (a g : List Char)
    (pre post : List (List Char × List Char))
    (hsplit : APP_LINK_RE_finditer html = pre ++ (a, g) :: post)
    (hfirst : String.mk g ∉ idsOf pre) :
    ∃ e ∈ extract_apps html, e.app_id = String.mk g ∧
      ((∀ v, reSearch ariaLabelToks a = some v →
          e.title = String.mk (pyStrip (unescape v))) ∧
        (reSearch ariaLabelToks a = none → e.title = "")) := by
  have := extractLoop_mem_first pre a g post [] [] hfirst (List.not_mem_nil _)
  rw [← hsplit] at this
  obtain ⟨e, he, hei, het⟩ := this
  refine ⟨e, he, hei, ?_, ?_⟩
  · intro v hv
    rw [het, anchorTitle, hv]
  · intro hv
    rw [het, anchorTitle, hv]

/-- Group 0 of the first match in `twoAnchorHtml`. -/
def twoAnchorFirstMatch : List Char :=
  "<a href=\"/store/apps/details?id=com.one\" aria-label=\"One\">x".data

/-- Group 0 of the second match in `twoAnchorHtml`. -/
def twoAnchorSecondMatch : List Char :=
  "<a class=\"c\" href=\"/store/apps/details?id=com.two\">y".data

theorem extract_apps_title_of_anchor_witness :
    APP_LINK_RE_finditer twoAnchorHtml =
      [] ++ (twoAnchorFirstMatch, "com.one".data) :: [(twoAnchorSecondMatch, "com.two".data)] ∧
    String.mk "com.one".data ∉ idsOf [] ∧
    (∃ e ∈ extract_apps twoAnchorHtml, e.app_id = String.mk "com.one".data ∧
      ((∀ v, reSearch ariaLabelToks twoAnchorFirstMatch = some v →
          e.title = String.mk (pyStrip (unescape v))) ∧
        (reSearch ariaLabelToks twoAnchorFirstMatch = none → e.title = ""))) :=
  ⟨by decide, by decide,
    extract_apps_title_of_anchor twoAnchorHtml twoAnchorFirstMatch "com.one".data
      [] [(twoAnchorSecondMatch, "com.two".data)] (by decide) (by decide)⟩

/-- A malformed fragment: the anchor is never closed, so no match exists. -/
def malformedHtml : String := "<a href=\"/store/apps/details?id="

/-- C7: `extract_apps` is total in the embedding, and an input with no
matching anchors yields the empty list. -/
theorem extract_apps_no_match_empty (html : String)
    (h : APP_LINK_RE_finditer html = []) : extract_apps html = [] := by
  rw [extract_apps, h]
  rfl

theorem extract_apps_no_match_empty_witness :
    APP_LINK_RE_finditer malformedHtml = [] ∧ extract_apps malformedHtml = [] :=
  ⟨by decide, extract_apps_no_match_empty malformedHtml (by decide)⟩

/-! ### Claim theorems: trimming -/

/-- C6: for a non-negative limit `L`, trimming keeps exactly the first
`min(L, N)` entries unchanged, and a `None` limit keeps everything. -/
theorem trim_entries_nonneg_limit (entries : List AppEntry) (L : Int) (h : 0 ≤ L) :
    (L < (entries.length : Int) →
      trim_entries entries (some L) = entries.take L.toNat ∧
      ((trim_entries entries (some L)).length : Int) = L) ∧
    ((entries.length : Int) ≤ L → trim_entries entries (some L) = entries) ∧
    trim_entries entries none = entries := by
  have hstop : pySliceStop entries.length L = min L.toNat entries.length := by
    unfold pySliceStop
    rw [if_neg (by omega)]
    omega
  refine ⟨?_, ?_, rfl⟩
  · intro hlt
    have hmin : min L.toNat entries.length = L.toNat := by omega
    constructor
    · show entries.take (pySliceStop entries.length L) = entries.take L.toNat
      rw [hstop, hmin]
    · show ((entries.take (pySliceStop entries.length L)).length : Int) = L
      rw [hstop, hmin]
      simp only [List.length_take]
      omega
  · intro hge
    show entries.take (pySliceStop entries.length L) = entries
    rw [hstop]
    refine List.take_of_length_le ?_
    omega

theorem trim_entries_nonneg_limit_witness :
    ((2 : Int) < ((List.range' 1 3).map (fun r => ({ rank := r, app_id := "a", title := "" } : AppEntry))).length →
      trim_entries ((List.range' 1 3).map (fun r => ({ rank := r, app_id := "a", title := "" } : AppEntry))) (some 2) =
        ((List.range' 1 3).map (fun r => ({ rank := r, app_id := "a", title := "" } : AppEntry))).take (2 : Int).toNat ∧
      ((trim_entries ((List.range' 1 3).map (fun r => ({ rank := r, app_id := "a", title := "" } : AppEntry))) (some 2)).length : Int) = 2) ∧
    ((((List.range' 1 3).map (fun r => ({ rank := r, app_id := "a", title := "" } : AppEntry))).length : Int) ≤ 2 →
      trim_entries ((List.range' 1 3).map (fun r => ({ rank := r, app_id := "a", title := "" } : AppEntry))) (some 2) =
        (List.range' 1 3).map (fun r => ({ rank := r, app_id := "a", title := "" } : AppEntry))) ∧
    trim_entries ((List.range' 1 3).map (fun r => ({ rank := r, app_id := "a", title := "" } : AppEntry))) none =
      (List.range' 1 3).map (fun r => ({ rank := r, app_id := "a", title := "" } : AppEntry)) :=
  trim_entries_nonneg_limit _ 2 (by decide)

/-- C10: a negative limit `n` is the Python slice `entries[:n]`: it removes
the last `min(|n|, length)` entries; and the empty list is fixed by every
limit. -/
theorem trim_entries_negative_limit (entries : List AppEntry) (n : Int) (h : n < 0) :
    trim_entries entries (some n) =
      entries.take (entries.length - min n.natAbs entries.length) ∧
    (∀ L : Option Int, trim_entries ([] : List AppEntry) L = []) := by
  constructor
  · have hstop : pySliceStop entries.length n =
        entries.length - min n.natAbs entries.length := by
      unfold pySliceStop
      rw [if_pos h]
      omega
    show entries.take (pySliceStop entries.length n) = _
    rw [hstop]
  · intro L
    cases L with
    | none => rfl
    | some m => simp [trim_entries]

theorem trim_entries_negative_limit_witness :
    trim_entries
        [({ rank := 1, app_id := "a", title := "" } : AppEntry),
         ({ rank := 2, app_id := "b", title := "" } : AppEntry),
         ({ rank := 3, app_id := "c", title := "" } : AppEntry)] (some (-2)) =
      ([({ rank := 1, app_id := "a", title := "" } : AppEntry),
        ({ rank := 2, app_id := "b", title := "" } : AppEntry),
        ({ rank := 3, app_id := "c", title := "" } : AppEntry)]).take
        (([({ rank := 1, app_id := "a", title := "" } : AppEntry),
           ({ rank := 2, app_id := "b", title := "" } : AppEntry),
           ({ rank := 3, app_id := "c", title := "" } : AppEntry)]).length -
          min (Int.natAbs (-2))
            ([({ rank := 1, app_id := "a", title := "" } : AppEntry),
              ({ rank := 2, app_id := "b", title := "" } : AppEntry),
              ({ rank := 3, app_id := "c", title := "" } : AppEntry)]).length) ∧
    (∀ L : Option Int, trim_entries ([] : List AppEntry) L = []) :=
  trim_entries_negative_limit _ (-2) (by decide)

/-! ### Claim theorems: the driver -/

/-- A fragment with exactly one well-formed anchor. -/
def oneAnchorHtml : String := "<a href=\"/store/apps/details?id=com.one\">x"

/-- Counterexample to C3 as stated: with `--limit 0`, one entry is
extracted (so "zero entries were extracted" is false) and yet the exit
status is 1. -/
theorem mainOn_exit_not_extraction :
    (extract_apps oneAnchorHtml).length = 1 ∧
    (mainOn oneAnchorHtml 0 false).exitCode = 1 :=
  ⟨by decide, by decide⟩

/-- C3 (amended): the exit status is 0 exactly when the emitted (trimmed)
entry list is non-empty and 1 exactly when it is empty; the output in the
requested format is always written to standard output, and the empty case
carries the diagnostic on the error stream. -/
theorem mainOn_exit_status (html : String) (limit : Int) (useJson : Bool) :
    ((mainOn html limit useJson).exitCode = 0 ↔
      trim_entries (extract_apps html) (some limit) ≠ []) ∧
    ((mainOn html limit useJson).exitCode = 1 ↔
      trim_entries (extract_apps html) (some limit) = []) ∧
    (mainOn html limit useJson).stdout =
      (if useJson then output_json (trim_entries (extract_apps html) (some limit))
       else output_csv (trim_entries (extract_apps html) (some limit))) ∧
    (trim_entries (extract_apps html) (some limit) = [] →
      (mainOn html limit useJson).stderr =
        "No entries found. HTML structure may have changed.\n") := by
  by_cases he : trim_entries (extract_apps html) (some limit) = []
  · have hb : (trim_entries (extract_apps html) (some limit)).isEmpty = true :=
      List.isEmpty_iff.mpr he
    simp [mainOn, hb, he]
  · have hb : (trim_entries (extract_apps html) (some limit)).isEmpty = false := by
      rw [← Bool.not_eq_true, List.isEmpty_iff]
      exact he
    simp [mainOn, hb, he]

theorem mainOn_exit_status_witness :
    (mainOn "no anchors" 50 false).exitCode = 1 ∧
    (mainOn "no anchors" 50 false).stderr =
      "No entries found. HTML structure may have changed.\n" :=
  ⟨((mainOn_exit_status "no anchors" 50 false).2.1).mpr (by decide),
    (mainOn_exit_status "no anchors" 50 false).2.2.2 (by decide)⟩

/-! ### Claim theorems: the URL builder -/

/-- Counterexample to C8 as stated: a provided-but-empty category string is
not attached to the URL (Python's truthiness check drops it). -/
theorem build_url_empty_category :
    (some "" : Option String) ≠ (none : Option String) ∧
    build_url "ko" "KR" (some "") = build_url "ko" "KR" none :=
  ⟨by decide, by decide⟩

/-- C8 (amended): `build_url` is deterministic, uses the single fixed
endpoint, attaches `hl` then `gl` then — exactly when a non-empty category
is provided — `category`, each percent-encoded, and validates nothing. -/
theorem build_url_query (language region c : String) (hc : c ≠ "") :
    build_url language region (some c) =
      BASE_URL ++ "?" ++ ("hl=" ++ quote_plus language ++ "&" ++
        ("gl=" ++ quote_plus region) ++ "&" ++ ("category=" ++ quote_plus c)) ∧
    build_url language region none =
      BASE_URL ++ "?" ++ ("hl=" ++ quote_plus language ++ "&" ++
        ("gl=" ++ quote_plus region)) ∧
    build_url language region (some "") = build_url language region none ∧
    (∀ l2 r2 : String, ∀ c2 : Option String,
      language = l2 → region = r2 →
        build_url language region c2 = build_url l2 r2 c2) := by
  have hce : c.isEmpty = false := by
    rw [← Bool.not_eq_true, String.isEmpty_iff]
    exact hc
  refine ⟨?_, ?_, ?_, ?_⟩
  · simp only [build_url, hce, Bool.false_eq_true, if_false, List.append_nil,
      List.cons_append, List.nil_append, urlencode]
    simp [String.append_assoc]
  · simp only [build_url, List.append_nil, urlencode]
    simp [String.append_assoc]
  · rfl
  · intro l2 r2 c2 h1 h2
    rw [h1, h2]

theorem build_url_query_witness :
    build_url "ko" "KR" (some "GAME") =
      BASE_URL ++ "?" ++ ("hl=" ++ quote_plus "ko" ++ "&" ++
        ("gl=" ++ quote_plus "KR") ++ "&" ++ ("category=" ++ quote_plus "GAME")) :=
  (build_url_query "ko" "KR" "GAME" (by decide)).1

/-! ### A standard JSON reader

Modelled from the spec: the spec's round-trip property refers to "parsing
the output as JSON" with a standard reader, which is not part of the
repository; the reader below parses the JSON fragment the tool can emit
(arrays of flat objects with string and integer values, arbitrary
interleaved whitespace, standard string escapes). -/

/-- JSON insignificant whitespace. -/
def jsonWs (c : Char) : Bool :=
  c.toNat == 32 || c.toNat == 9 || c.toNat == 10 || c.toNat == 13

/-- Skip insignificant whitespace. -/
def skipWs (s : List Char) : List Char := s.dropWhile jsonWs

/-- Decode a single-character JSON escape. -/
def jsonUnescapeChar (e : Char) : Option Char :=
  if e = '\"' then some '\"'
  else if e = '\\' then some '\\'
  else if e = '/' then some '/'
  else if e = 'n' then some '\n'
  else if e = 'r' then some '\r'
  else if e = 't' then some '\t'
  else if e = 'b' then some (Char.ofNat 8)
  else if e = 'f' then some (Char.ofNat 12)
  else none

/-- Body of a JSON string literal (after the opening quote), returning the
decoded contents and the input after the closing quote. -/
def parseJsonStringBody : List Char → Option (List Char × List Char)
  | [] => none
  | c :: rest =>
    if c = '\"' then some ([], rest)
    else if c = '\\' then
      match rest with
      | [] => none
      | e :: rest' =>
        if e = 'u' then
          match rest' with
          | h1 :: h2 :: h3 :: h4 :: rest'' =>
            match hexVal h1, hexVal h2, hexVal h3, hexVal h4 with
            | some a, some b, some c4, some d =>
              (parseJsonStringBody rest'').map
                (fun p => (charFromCode (((a * 16 + b) * 16 + c4) * 16 + d) :: p.1, p.2))
            | _, _, _, _ => none
          | _ => none
        else
          match jsonUnescapeChar e with
          | some u => (parseJsonStringBody rest').map (fun p => (u :: p.1, p.2))
          | none => none
    else (parseJsonStringBody rest).map (fun p => (c :: p.1, p.2))

/-- A JSON string literal. -/
def parseJsonString (s : List Char) : Option (List Char × List Char) :=
  match s with
  | [] => none
  | c :: rest => if c = '\"' then parseJsonStringBody rest else none

/-- A non-empty run of decimal digits. -/
def parseDigitsNat (s : List Char) : Option (Nat × List Char) :=
  let ds := s.takeWhile Char.isDigit
  if ds.isEmpty then none else some (decOfDigits ds, s.drop ds.length)

/-- A JSON integer (optional minus sign, digits). -/
def parseIntTok (s : List Char) : Option (Int × List Char) :=
  match s with
  | [] => none
  | c :: rest =>
    if c = '-' then (parseDigitsNat rest).map (fun p => (-(p.1 : Int), p.2))
    else (parseDigitsNat s).map (fun p => ((p.1 : Int), p.2))

/-- The JSON values the tool emits inside objects. -/
inductive JVal where
  | num (i : Int)
  | str (s : String)
deriving DecidableEq, Repr

/-- A JSON scalar value: a string or an integer. -/
def parseJVal (s : List Char) : Option (JVal × List Char) :=
  match parseJsonString s with
  | some (t, r) => some (.str (String.mk t), r)
  | none => (parseIntTok s).map (fun p => (JVal.num p.1, p.2))

/-- The members of a JSON object after the opening brace (at least one
member), as an association list. -/
def parseMembers : Nat → List Char → Option (List (String × JVal) × List Char)
  | 0, _ => none
  | fuel + 1, s =>
    match parseJsonString (skipWs s) with
    | none => none
    | some (k, r1) =>
      match skipWs r1 with
      | ':' :: r2 =>
        match parseJVal (skipWs r2) with
        | none => none
        | some (v, r3) =>
          match skipWs r3 with
          | ',' :: r4 =>
            (parseMembers fuel r4).map (fun p => ((String.mk k, v) :: p.1, p.2))
          | '\x7d' :: r4 => some ([(String.mk k, v)], r4)
          | _ => none
      | _ => none

/-- A JSON object. -/
def parseObject (fuel : Nat) (s : List Char) : Option (List (String × JVal) × List Char) :=
  match skipWs s with
  | '\x7b' :: r =>
    match skipWs r with
    | '\x7d' :: r2 => some ([], r2)
    | _ => parseMembers fuel r
  | _ => none

/-- The comma-separated objects of a non-empty JSON array, up to and
including the closing bracket. -/
def parseItems : Nat → List Char → Option (List (List (String × JVal)) × List Char)
  | 0, _ => none
  | fuel + 1, s =>
    match parseObject (s.length + 1) s with
    | none => none
    | some (obj, r) =>
      match skipWs r with
      | ',' :: r2 => (parseItems fuel r2).map (fun p => (obj :: p.1, p.2))
      | ']' :: r2 => some ([obj], r2)
      | _ => none

/-- A whole JSON document consisting of one array of objects. -/
def parseJsonTopArray (s : List Char) : Option (List (List (String × JVal))) :=
  match skipWs s with
  | '[' :: r =>
    match skipWs r with
    | [] => none
    | c :: r2 =>
      if c = ']' then (if skipWs r2 = [] then some [] else none)
      else
        match parseItems (s.length + 1) r with
        | some (os, r3) => if skipWs r3 = [] then some os else none
        | none => none
  | _ => none

/-- Look a key up in a parsed object. -/
def jlookup : List (String × JVal) → String → Option JVal
  | [], _ => none
  | kv :: rest, k => if kv.1 = k then some kv.2 else jlookup rest k

/-- Read the `(rank, app_id, title)` tuple off a parsed object. -/
def objTuple (ms : List (String × JVal)) : Option (Int × String × String) :=
  match jlookup ms "rank", jlookup ms "app_id", jlookup ms "title" with
  | some (.num i), some (.str a), some (.str t) => some (i, a, t)
  | _, _, _ => none

/-- Read the tuples off all parsed objects. -/
def objTuples : List (List (String × JVal)) → Option (List (Int × String × String))
  | [] => some []
  | o :: os =>
    match objTuple o, objTuples os with
    | some t, some ts => some (t :: ts)
    | _, _ => none

/-- Parse a JSON document into the entry tuples. -/
def parseJsonEntries (s : String) : Option (List (Int × String × String)) :=
  match parseJsonTopArray s.data with
  | some os => objTuples os
  | none => none

/-! ### A standard CSV reader

Modelled from the spec: the round-trip property refers to "parsing with a
standard CSV reader", which is not part of the repository; the reader
below implements the `excel` dialect the writer uses (comma separator,
CRLF records, doubled-quote escaping inside quoted fields). -/

/-- A character that ends an unquoted CSV field. -/
def csvSpecial (c : Char) : Bool := c == ',' || c == '\r' || c == '\n'

/-- Body of a quoted CSV field after the opening quote: doubled quotes are
literal quotes, a lone quote closes the field. -/
def parseQuotedBody : List Char → Option (List Char × List Char)
  | [] => none
  | c :: rest =>
    if c = '\"' then
      match rest with
      | [] => some ([], rest)
      | c2 :: rest2 =>
        if c2 = '\"' then (parseQuotedBody rest2).map (fun p => ('\"' :: p.1, p.2))
        else some ([], rest)
    else (parseQuotedBody rest).map (fun p => (c :: p.1, p.2))

/-- One CSV field: quoted if it starts with a quote, otherwise the run up
to the next separator or record end. -/
def parseCsvField (s : List Char) : Option (List Char × List Char) :=
  match s with
  | [] => some ([], [])
  | c :: rest =>
    if c = '\"' then parseQuotedBody rest
    else
      some ((c :: rest).takeWhile (fun x => !csvSpecial x),
        (c :: rest).dropWhile (fun x => !csvSpecial x))

/-- One CSV record: comma-separated fields ended by CRLF (or the end of
input). -/
def parseCsvRecord : Nat → List Char → Option (List String × List Char)
  | 0, _ => none
  | fuel + 1, s =>
    match parseCsvField s with
    | none => none
    | some (f, r) =>
      match r with
      | ',' :: r2 => (parseCsvRecord fuel r2).map (fun p => (String.mk f :: p.1, p.2))
      | '\r' :: '\n' :: r2 => some ([String.mk f], r2)
      | [] => some ([String.mk f], [])
      | _ => none

/-- All records of a CSV document. -/
def parseCsvRecords : Nat → List Char → Option (List (List String))
  | 0, _ => none
  | fuel + 1, s =>
    if s = [] then some []
    else
      match parseCsvRecord (s.length + 1) s with
      | none => none
      | some (fs, r) => (parseCsvRecords fuel r).map (fun rs => fs :: rs)

/-- Parse a CSV document. -/
def parseCsv (s : String) : Option (List (List String)) :=
  parseCsvRecords (s.length + 1) s.data

/-- Read the `(rank, app_id, title)` tuple off one CSV data row. -/
def rowTuple : List String → Option (Int × String × String)
  | [r, a, t] =>
    match parseIntTok r.data with
    | some (i, rest) => if rest = [] then some (i, a, t) else none
    | none => none
  | _ => none

/-- Read the tuples off all CSV data rows. -/
def rowTuples : List (List String) → Option (List (Int × String × String))
  | [] => some []
  | r :: rs =>
    match rowTuple r, rowTuples rs with
    | some t, some ts => some (t :: ts)
    | _, _ => none

/-- Parse a CSV document into the entry tuples, checking the header row. -/
def parseCsvEntries (s : String) : Option (List (Int × String × String)) :=
  match parseCsv s with
  | some (hdr :: rows) =>
    if hdr = ["rank", "app_id", "title"] then rowTuples rows else none
  | _ => none

/-! ### Decimal printing round-trips with decimal parsing -/

theorem digitChar_isDigit {d : Nat} (h : d < 10) : (Nat.digitChar d).isDigit = true := by
  interval_cases d <;> decide

theorem digitChar_val {d : Nat} (h : d < 10) : (Nat.digitChar d).toNat - '0'.toNat = d := by
  interval_cases d <;> decide

theorem isDigit_toNat {c : Char} (h : c.isDigit = true) : 48 ≤ c.toNat ∧ c.toNat ≤ 57 := by
  simp only [Char.isDigit, Bool.and_eq_true, decide_eq_true_eq] at h
  obtain ⟨h1, h2⟩ := h
  exact ⟨h1, h2⟩

theorem natToDecAux_spec :
    ∀ fuel n, n ≤ fuel →
      (∀ c ∈ natToDecAux fuel n, c.isDigit = true) ∧
      decOfDigits (natToDecAux fuel n) = n ∧ natToDecAux fuel n ≠ [] := by
  intro fuel
  induction fuel with
  | zero =>
    intro n hn
    have h0 : n = 0 := Nat.le_zero.mp hn
    subst h0
    refine ⟨?_, by decide, by simp [natToDecAux]⟩
    intro c hc
    simp only [natToDecAux, List.mem_singleton] at hc
    subst hc
    decide
  | succ fuel ih =>
    intro n hn
    by_cases h10 : n < 10
    · simp only [natToDecAux, if_pos h10]
      refine ⟨?_, ?_, by simp⟩
      · intro c hc
        simp only [List.mem_singleton] at hc
        subst hc
        exact digitChar_isDigit h10
      · show decOfDigits [Nat.digitChar n] = n
        unfold decOfDigits
        simp only [List.foldl_cons, List.foldl_nil, Nat.zero_mul, Nat.zero_add]
        exact digitChar_val h10
    · simp only [natToDecAux, if_neg h10]
      have hdiv : n / 10 ≤ fuel := by
        have : n / 10 < n := Nat.div_lt_self (by omega) (by omega)
        omega
      obtain ⟨ha, hb, _⟩ := ih (n / 10) hdiv
      refine ⟨?_, ?_, by simp⟩
      · intro c hc
        rcases List.mem_append.mp hc with h | h
        · exact ha c h
        · simp only [List.mem_singleton] at h
          subst h
          exact digitChar_isDigit (Nat.mod_lt _ (by omega))
      · unfold decOfDigits
        rw [List.foldl_append]
        simp only [List.foldl_cons, List.foldl_nil]
        have hmod : (Nat.digitChar (n % 10)).toNat - '0'.toNat = n % 10 :=
          digitChar_val (Nat.mod_lt _ (by omega))
        unfold decOfDigits at hb
        rw [hb, hmod]
        omega

theorem natToDec_spec (n : Nat) :
    (∀ c ∈ natToDec n, c.isDigit = true) ∧
      decOfDigits (natToDec n) = n ∧ natToDec n ≠ [] :=
  natToDecAux_spec n n (Nat.le_refl n)

theorem takeWhile_append_all {p : Char → Bool} :
    ∀ (l1 l2 : List Char), (∀ c ∈ l1, p c = true) →
      (∀ c, l2.head? = some c → p c = false) →
      (l1 ++ l2).takeWhile p = l1 ∧ (l1 ++ l2).dropWhile p = l2 := by
  intro l1
  induction l1 with
  | nil =>
    intro l2 _ h2
    cases l2 with
    | nil => simp
    | cons c t =>
      have hc := h2 c rfl
      simp [List.takeWhile_cons, List.dropWhile_cons, hc]
  | cons a l1 ih =>
    intro l2 h1 h2
    have ha := h1 a (List.mem_cons_self _ _)
    have ih' := ih l2 (fun c hc => h1 c (List.mem_cons_of_mem _ hc)) h2
    simp [List.takeWhile_cons, List.dropWhile_cons, ha, ih'.1, ih'.2]

theorem parseDigitsNat_round {ds rest : List Char} (hne : ds ≠ [])
    (hds : ∀ c ∈ ds, c.isDigit = true)
    (hrest : ∀ c, rest.head? = some c → c.isDigit = false) :
    parseDigitsNat (ds ++ rest) = some (decOfDigits ds, rest) := by
  obtain ⟨htake, hdrop⟩ := takeWhile_append_all ds rest hds hrest
  unfold parseDigitsNat
  simp only [htake]
  have hemp : ds.isEmpty = false := by
    cases ds with
    | nil => exact absurd rfl hne
    | cons a t => rfl
  simp only [hemp, Bool.false_eq_true, if_false]
  rw [List.drop_left]

theorem parseIntTok_natToDec {n : Nat} {rest : List Char}
    (hrest : ∀ c, rest.head? = some c → c.isDigit = false) :
    parseIntTok (natToDec n ++ rest) = some ((n : Int), rest) := by
  obtain ⟨hdig, hval, hne⟩ := natToDec_spec n
  cases hd : natToDec n with
  | nil => exact absurd hd hne
  | cons c tl =>
    rw [hd] at hdig hval
    have hcd : c.isDigit = true := hdig c (List.mem_cons_self _ _)
    have hcm : ¬(c = '-') := by
      intro h
      rw [h] at hcd
      exact absurd hcd (by decide)
    show parseIntTok ((c :: tl) ++ rest) = some ((n : Int), rest)
    rw [List.cons_append, parseIntTok]
    rw [if_neg hcm]
    rw [← List.cons_append]
    rw [parseDigitsNat_round (by simp) hdig hrest]
    simp [hval]

/-! ### JSON string escaping round-trips with JSON string parsing -/

theorem hexVal_hexDigitLower {m : Nat} (h : m < 16) : hexVal (hexDigitLower m) = some m := by
  interval_cases m <;> decide

theorem jsonEscapeChar_cases (c : Char) :
    (∃ q, jsonEscapeChar c = ['\\', q] ∧ ¬(q = 'u') ∧ jsonUnescapeChar q = some c) ∨
    (jsonEscapeChar c = ['\\', 'u', '0', '0',
        hexDigitLower (c.toNat / 16), hexDigitLower (c.toNat % 16)] ∧ c.toNat < 32) ∨
    (jsonEscapeChar c = [c] ∧ ¬(c = '\"') ∧ ¬(c = '\\')) := by
  by_cases h1 : c = '\"'
  · subst h1; exact Or.inl ⟨'\"', by decide, by decide, by decide⟩
  by_cases h2 : c = '\\'
  · subst h2; exact Or.inl ⟨'\\', by decide, by decide, by decide⟩
  by_cases h3 : c = '\n'
  · subst h3; exact Or.inl ⟨'n', by decide, by decide, by decide⟩
  by_cases h4 : c = '\r'
  · subst h4; exact Or.inl ⟨'r', by decide, by decide, by decide⟩
  by_cases h5 : c = '\t'
  · subst h5; exact Or.inl ⟨'t', by decide, by decide, by decide⟩
  have b1 : (c == '\"') = false := beq_eq_false_iff_ne.mpr h1
  have b2 : (c == '\\') = false := beq_eq_false_iff_ne.mpr h2
  have b3 : (c == '\n') = false := beq_eq_false_iff_ne.mpr h3
  have b4 : (c == '\r') = false := beq_eq_false_iff_ne.mpr h4
  have b5 : (c == '\t') = false := beq_eq_false_iff_ne.mpr h5
  by_cases h6 : c.toNat = 8
  · refine Or.inl ⟨'b', ?_, by decide, ?_⟩
    · simp [jsonEscapeChar, b1, b2, b3, b4, b5, h6]
    · show jsonUnescapeChar 'b' = some c
      rw [show jsonUnescapeChar 'b' = some (Char.ofNat 8) from rfl, ← h6, Char.ofNat_toNat]
  by_cases h7 : c.toNat = 12
  · refine Or.inl ⟨'f', ?_, by decide, ?_⟩
    · simp [jsonEscapeChar, b1, b2, b3, b4, b5, h6, h7]
    · show jsonUnescapeChar 'f' = some c
      rw [show jsonUnescapeChar 'f' = some (Char.ofNat 12) from rfl, ← h7, Char.ofNat_toNat]
  by_cases h8 : c.toNat < 32
  · refine Or.inr (Or.inl ⟨?_, h8⟩)
    simp [jsonEscapeChar, b1, b2, b3, b4, b5, h6, h7, h8]
  · refine Or.inr (Or.inr ⟨?_, h1, h2⟩)
    simp [jsonEscapeChar, b1, b2, b3, b4, b5, h6, h7, h8]

theorem parseJsonStringBody_escape {q c : Char} (hq : ¬(q = 'u'))
    (hu : jsonUnescapeChar q = some c) (rest : List Char) :
    parseJsonStringBody ('\\' :: q :: rest) =
      (parseJsonStringBody rest).map (fun p => (c :: p.1, p.2)) := by
  rw [parseJsonStringBody.eq_def]
  simp [hq, hu]

theorem parseJsonStringBody_unicode {x y : Nat} (hx : x < 16) (hy : y < 16)
    (rest : List Char) :
    parseJsonStringBody
        ('\\' :: 'u' :: '0' :: '0' :: hexDigitLower x :: hexDigitLower y :: rest) =
      (parseJsonStringBody rest).map
        (fun p => (charFromCode (x * 16 + y) :: p.1, p.2)) := by
  rw [parseJsonStringBody.eq_def]
  simp [hexVal_hexDigitLower hx, hexVal_hexDigitLower hy,
    show hexVal '0' = some 0 from by decide]

theorem parseJsonStringBody_literal {c : Char} (h1 : ¬(c = '\"')) (h2 : ¬(c = '\\'))
    (rest : List Char) :
    parseJsonStringBody (c :: rest) =
      (parseJsonStringBody rest).map (fun p => (c :: p.1, p.2)) := by
  rw [parseJsonStringBody.eq_def]
  simp [h1, h2]

theorem parseJsonStringBody_round :
    ∀ (s rest : List Char),
      parseJsonStringBody (s.flatMap jsonEscapeChar ++ '\"' :: rest) = some (s, rest) := by
  intro s
  induction s with
  | nil =>
    intro rest
    show parseJsonStringBody ('\"' :: rest) = some ([], rest)
    rw [parseJsonStringBody.eq_def]
    simp
  | cons c s ih =>
    intro rest
    rw [List.flatMap_cons, List.append_assoc]
    rcases jsonEscapeChar_cases c with ⟨q, he, hq, hu⟩ | ⟨he, hlt⟩ | ⟨he, h1, h2⟩
    · rw [he]
      show parseJsonStringBody ('\\' :: q :: (s.flatMap jsonEscapeChar ++ '\"' :: rest)) = _
      rw [parseJsonStringBody_escape hq hu, ih]
      rfl
    · rw [he]
      show parseJsonStringBody ('\\' :: 'u' :: '0' :: '0' ::
        hexDigitLower (c.toNat / 16) :: hexDigitLower (c.toNat % 16) ::
          (s.flatMap jsonEscapeChar ++ '\"' :: rest)) = _
      rw [parseJsonStringBody_unicode (by omega) (by omega), ih]
      have harg : c.toNat / 16 * 16 + c.toNat % 16 = c.toNat := by omega
      rw [harg]
      have hcc : charFromCode c.toNat = c := by
        unfold charFromCode
        rw [if_pos (Or.inl (by omega))]
        exact Char.ofNat_toNat c
      rw [hcc]
      rfl
    · rw [he]
      show parseJsonStringBody (c :: (s.flatMap jsonEscapeChar ++ '\"' :: rest)) = _
      rw [parseJsonStringBody_literal h1 h2, ih]
      rfl

theorem parseJsonString_round (s rest : List Char) :
    parseJsonString (jsonStrL s ++ rest) = some (s, rest) := by
  show parseJsonString ('\"' :: ((s.flatMap jsonEscapeChar ++ ['\"']) ++ rest)) = _
  rw [parseJsonString.eq_def]
  simp only [if_pos rfl]
  rw [List.append_assoc, List.singleton_append]
  exact parseJsonStringBody_round s rest

/-! ### Whitespace skipping -/

theorem skipWs_past_ws :
    ∀ {pre X : List Char}, (∀ c ∈ pre, jsonWs c = true) → skipWs (pre ++ X) = skipWs X := by
  intro pre
  induction pre with
  | nil => intro X _; rfl
  | cons a pre ih =>
    intro X h
    have ha := h a (List.mem_cons_self _ _)
    simp only [List.cons_append, skipWs, List.dropWhile_cons, ha, if_true]
    exact ih (fun c hc => h c (List.mem_cons_of_mem _ hc))

theorem skipWs_cons_not_ws {c : Char} {X : List Char} (h : jsonWs c = false) :
    skipWs (c :: X) = c :: X := by
  simp [skipWs, List.dropWhile_cons, h]

theorem jsonWs_digit {c : Char} (h : c.isDigit = true) : jsonWs c = false := by
  obtain ⟨h1, h2⟩ := isDigit_toNat h
  simp only [jsonWs, Bool.or_eq_false_iff]
  refine ⟨⟨⟨?_, ?_⟩, ?_⟩, ?_⟩ <;> simp <;> omega

theorem digit_ne_quote {c : Char} (h : c.isDigit = true) : ¬(c = '\"') := by
  intro he
  subst he
  exact absurd h (by decide)

theorem skipWs_cons_ws {c : Char} {X : List Char} (h : jsonWs c = true) :
    skipWs (c :: X) = skipWs X := by
  simp [skipWs, List.dropWhile_cons, h]

theorem String_mk_data (s : String) : String.mk s.data = s := by
  cases s
  rfl

theorem jsonStrL_cons_append (x y : List Char) :
    jsonStrL x ++ y = '\"' :: ((x.flatMap jsonEscapeChar ++ ['\"']) ++ y) := rfl

/-- Parsing one serialized value: a JSON string literal. -/
theorem parseJVal_str (x tail : List Char) :
    parseJVal (jsonStrL x ++ tail) = some (JVal.str (String.mk x), tail) := by
  unfold parseJVal
  rw [parseJsonString_round]

/-- Parsing one serialized value: a decimal number followed by a
non-digit. -/
theorem parseJVal_nat (n : Nat) {tail : List Char}
    (htail : ∀ c, tail.head? = some c → c.isDigit = false) :
    parseJVal (natToDec n ++ tail) = some (JVal.num (n : Int), tail) := by
  obtain ⟨hdig, -, hne⟩ := natToDec_spec n
  unfold parseJVal
  have hstr : parseJsonString (natToDec n ++ tail) = none := by
    cases hd : natToDec n with
    | nil => exact absurd hd hne
    | cons c tl =>
      have hcd : c.isDigit = true := hdig c (by rw [hd]; exact List.mem_cons_self _ _)
      rw [parseJsonString.eq_def]
      simp only [List.cons_append]
      rw [if_neg (digit_ne_quote hcd)]
  rw [hstr, parseIntTok_natToDec htail]
  rfl

/-- One-step unfolding of `parseMembers` at positive fuel. -/
theorem parseMembers_succ (fuel : Nat) (s : List Char) :
    parseMembers (fuel + 1) s =
      match parseJsonString (skipWs s) with
      | none => none
      | some (k, r1) =>
        match skipWs r1 with
        | ':' :: r2 =>
          match parseJVal (skipWs r2) with
          | none => none
          | some (v, r3) =>
            match skipWs r3 with
            | ',' :: r4 =>
              (parseMembers fuel r4).map (fun p => ((String.mk k, v) :: p.1, p.2))
            | '\x7d' :: r4 => some ([(String.mk k, v)], r4)
            | _ => none
        | _ => none := rfl

/-- Parsing the serialization of one entry as a JSON object: the three
members come back in order with their values. -/
theorem parseObject_entry (e : AppEntry) (rest : List Char) (fuel : Nat) (hf : 3 ≤ fuel)
    (pre : List Char) (hpre : ∀ c ∈ pre, jsonWs c = true) :
    parseObject fuel (pre ++ (jsonEntryL e ++ rest)) =
      some ([("rank", JVal.num (e.rank : Int)), ("app_id", JVal.str e.app_id),
        ("title", JVal.str e.title)], rest) := by
  obtain ⟨k, rfl⟩ : ∃ k, fuel = k + 3 := ⟨fuel - 3, by omega⟩
  have hwn : jsonWs '\n' = true := by decide
  have hwsp : jsonWs ' ' = true := by decide
  have hJ : jsonEntryL e ++ rest =
      '\x7b' :: '\n' :: ' ' :: ' ' :: ' ' :: ' ' :: '\"' :: 'r' :: 'a' :: 'n' :: 'k' :: '\"' :: ':' :: ' ' ::
        (natToDec e.rank ++
          (',' :: '\n' :: ' ' :: ' ' :: ' ' :: ' ' :: '\"' :: 'a' :: 'p' :: 'p' :: '_' :: 'i' :: 'd' :: '\"' :: ':' :: ' ' ::
            (jsonStrL e.app_id.data ++
              (',' :: '\n' :: ' ' :: ' ' :: ' ' :: ' ' :: '\"' :: 't' :: 'i' :: 't' :: 'l' :: 'e' :: '\"' :: ':' :: ' ' ::
                (jsonStrL e.title.data ++
                  ('\n' :: ' ' :: ' ' :: '\x7d' :: rest)))))) := by
    simp [jsonEntryL, List.append_assoc]
  -- the third member, `"title": <string>`, closing the object
  have m3 : ∀ f : Nat,
      parseMembers (f + 1)
        ('\n' :: ' ' :: ' ' :: ' ' :: ' ' :: '\"' :: 't' :: 'i' :: 't' :: 'l' :: 'e' :: '\"' :: ':' :: ' ' ::
          (jsonStrL e.title.data ++ ('\n' :: ' ' :: ' ' :: '\x7d' :: rest))) =
        some ([("title", JVal.str e.title)], rest) := by
    intro f
    rw [parseMembers_succ]
    rw [skipWs_cons_ws hwn, skipWs_cons_ws hwsp, skipWs_cons_ws hwsp,
      skipWs_cons_ws hwsp, skipWs_cons_ws hwsp,
      skipWs_cons_not_ws (by decide)]
    rw [show ('\"' :: 't' :: 'i' :: 't' :: 'l' :: 'e' :: '\"' :: ':' :: ' ' ::
        (jsonStrL e.title.data ++ ('\n' :: ' ' :: ' ' :: '\x7d' :: rest))) =
      jsonStrL "title".data ++ (':' :: ' ' ::
        (jsonStrL e.title.data ++ ('\n' :: ' ' :: ' ' :: '\x7d' :: rest))) from rfl]
    rw [parseJsonString_round]
    simp only [skipWs_cons_not_ws (show jsonWs ':' = false from by decide),
      skipWs_cons_ws hwsp]
    rw [jsonStrL_cons_append, skipWs_cons_not_ws (show jsonWs '\"' = false from by decide),
      ← jsonStrL_cons_append, parseJVal_str]
    simp only [skipWs_cons_ws hwn, skipWs_cons_ws hwsp,
      skipWs_cons_not_ws (show jsonWs '\x7d' = false from by decide), String_mk_data]
  -- the second member, `"app_id": <string>`, continuing with a comma
  have m2 : ∀ f : Nat,
      parseMembers (f + 1 + 1)
        ('\n' :: ' ' :: ' ' :: ' ' :: ' ' :: '\"' :: 'a' :: 'p' :: 'p' :: '_' :: 'i' :: 'd' :: '\"' :: ':' :: ' ' ::
          (jsonStrL e.app_id.data ++
            (',' :: '\n' :: ' ' :: ' ' :: ' ' :: ' ' :: '\"' :: 't' :: 'i' :: 't' :: 'l' :: 'e' :: '\"' :: ':' :: ' ' ::
              (jsonStrL e.title.data ++ ('\n' :: ' ' :: ' ' :: '\x7d' :: rest))))) =
        some ([("app_id", JVal.str e.app_id), ("title", JVal.str e.title)], rest) := by
    intro f
    rw [parseMembers_succ]
    rw [skipWs_cons_ws hwn, skipWs_cons_ws hwsp, skipWs_cons_ws hwsp,
      skipWs_cons_ws hwsp, skipWs_cons_ws hwsp,
      skipWs_cons_not_ws (by decide)]
    rw [show ('\"' :: 'a' :: 'p' :: 'p' :: '_' :: 'i' :: 'd' :: '\"' :: ':' :: ' ' ::
        (jsonStrL e.app_id.data ++
          (',' :: '\n' :: ' ' :: ' ' :: ' ' :: ' ' :: '\"' :: 't' :: 'i' :: 't' :: 'l' :: 'e' :: '\"' :: ':' :: ' ' ::
            (jsonStrL e.title.data ++ ('\n' :: ' ' :: ' ' :: '\x7d' :: rest))))) =
      jsonStrL "app_id".data ++ (':' :: ' ' ::
        (jsonStrL e.app_id.data ++
          (',' :: '\n' :: ' ' :: ' ' :: ' ' :: ' ' :: '\"' :: 't' :: 'i' :: 't' :: 'l' :: 'e' :: '\"' :: ':' :: ' ' ::
            (jsonStrL e.title.data ++ ('\n' :: ' ' :: ' ' :: '\x7d' :: rest))))) from rfl]
    rw [parseJsonString_round]
    simp only [skipWs_cons_not_ws (show jsonWs ':' = false from by decide),
      skipWs_cons_ws hwsp]
    rw [jsonStrL_cons_append, skipWs_cons_not_ws (show jsonWs '\"' = false from by decide),
      ← jsonStrL_cons_append, parseJVal_str]
    simp only [skipWs_cons_not_ws (show jsonWs ',' = false from by decide)]
    rw [m3 f, String_mk_data]
    rfl
  -- the first member, `"rank": <number>`, continuing with a comma
  have m1 :
      parseMembers (k + 2 + 1)
        ('\n' :: ' ' :: ' ' :: ' ' :: ' ' :: '\"' :: 'r' :: 'a' :: 'n' :: 'k' :: '\"' :: ':' :: ' ' ::
          (natToDec e.rank ++
            (',' :: '\n' :: ' ' :: ' ' :: ' ' :: ' ' :: '\"' :: 'a' :: 'p' :: 'p' :: '_' :: 'i' :: 'd' :: '\"' :: ':' :: ' ' ::
              (jsonStrL e.app_id.data ++
                (',' :: '\n' :: ' ' :: ' ' :: ' ' :: ' ' :: '\"' :: 't' :: 'i' :: 't' :: 'l' :: 'e' :: '\"' :: ':' :: ' ' ::
                  (jsonStrL e.title.data ++ ('\n' :: ' ' :: ' ' :: '\x7d' :: rest))))))) =
        some ([("rank", JVal.num (e.rank : Int)), ("app_id", JVal.str e.app_id),
          ("title", JVal.str e.title)], rest) := by
    rw [parseMembers_succ]
    rw [skipWs_cons_ws hwn, skipWs_cons_ws hwsp, skipWs_cons_ws hwsp,
      skipWs_cons_ws hwsp, skipWs_cons_ws hwsp,
      skipWs_cons_not_ws (by decide)]
    rw [show ('\"' :: 'r' :: 'a' :: 'n' :: 'k' :: '\"' :: ':' :: ' ' ::
        (natToDec e.rank ++
          (',' :: '\n' :: ' ' :: ' ' :: ' ' :: ' ' :: '\"' :: 'a' :: 'p' :: 'p' :: '_' :: 'i' :: 'd' :: '\"' :: ':' :: ' ' ::
            (jsonStrL e.app_id.data ++
              (',' :: '\n' :: ' ' :: ' ' :: ' ' :: ' ' :: '\"' :: 't' :: 'i' :: 't' :: 'l' :: 'e' :: '\"' :: ':' :: ' ' ::
                (jsonStrL e.title.data ++ ('\n' :: ' ' :: ' ' :: '\x7d' :: rest))))))) =
      jsonStrL "rank".data ++ (':' :: ' ' ::
        (natToDec e.rank ++
          (',' :: '\n' :: ' ' :: ' ' :: ' ' :: ' ' :: '\"' :: 'a' :: 'p' :: 'p' :: '_' :: 'i' :: 'd' :: '\"' :: ':' :: ' ' ::
            (jsonStrL e.app_id.data ++
              (',' :: '\n' :: ' ' :: ' ' :: ' ' :: ' ' :: '\"' :: 't' :: 'i' :: 't' :: 'l' :: 'e' :: '\"' :: ':' :: ' ' ::
                (jsonStrL e.title.data ++ ('\n' :: ' ' :: ' ' :: '\x7d' :: rest))))))) from rfl]
    rw [parseJsonString_round]
    simp only [skipWs_cons_not_ws (show jsonWs ':' = false from by decide),
      skipWs_cons_ws hwsp]
    have hdignw : skipWs (natToDec e.rank ++
        (',' :: '\n' :: ' ' :: ' ' :: ' ' :: ' ' :: '\"' :: 'a' :: 'p' :: 'p' :: '_' :: 'i' :: 'd' :: '\"' :: ':' :: ' ' ::
          (jsonStrL e.app_id.data ++
            (',' :: '\n' :: ' ' :: ' ' :: ' ' :: ' ' :: '\"' :: 't' :: 'i' :: 't' :: 'l' :: 'e' :: '\"' :: ':' :: ' ' ::
              (jsonStrL e.title.data ++ ('\n' :: ' ' :: ' ' :: '\x7d' :: rest)))))) =
        natToDec e.rank ++
          (',' :: '\n' :: ' ' :: ' ' :: ' ' :: ' ' :: '\"' :: 'a' :: 'p' :: 'p' :: '_' :: 'i' :: 'd' :: '\"' :: ':' :: ' ' ::
            (jsonStrL e.app_id.data ++
              (',' :: '\n' :: ' ' :: ' ' :: ' ' :: ' ' :: '\"' :: 't' :: 'i' :: 't' :: 'l' :: 'e' :: '\"' :: ':' :: ' ' ::
                (jsonStrL e.title.data ++ ('\n' :: ' ' :: ' ' :: '\x7d' :: rest))))) := by
      obtain ⟨hdig, -, hne⟩ := natToDec_spec e.rank
      cases hd : natToDec e.rank with
      | nil => exact absurd hd hne
      | cons c tl =>
        have hcd : c.isDigit = true := hdig c (by rw [hd]; exact List.mem_cons_self _ _)
        rw [List.cons_append]
        exact skipWs_cons_not_ws (jsonWs_digit hcd)
    rw [hdignw]
    rw [parseJVal_nat e.rank (by intro c hc; cases hc; decide)]
    simp only [skipWs_cons_not_ws (show jsonWs ',' = false from by decide)]
    rw [m2 k, String_mk_data]
    rfl
  -- assemble the object
  unfold parseObject
  rw [skipWs_past_ws hpre, hJ,
    skipWs_cons_not_ws (show jsonWs '\x7b' = false from by decide)]
  simp only [skipWs_cons_ws hwn, skipWs_cons_ws hwsp,
    skipWs_cons_not_ws (show jsonWs '\"' = false from by decide)]
  exact m1

/-- The association list a serialized entry parses to. -/
def entryObj (e : AppEntry) : List (String × JVal) :=
  [("rank", JVal.num (e.rank : Int)), ("app_id", JVal.str e.app_id),
    ("title", JVal.str e.title)]

theorem jsonEntryL_len (e : AppEntry) : 14 ≤ (jsonEntryL e).length := by
  have h1 : ("\x7b\n    \"rank\": ".data).length = 14 := rfl
  simp [jsonEntryL, List.length_append, h1]

/-- Every chunk list with non-empty chunks is at least as long as its
separator-free join. -/
theorem joinSep_ge1 (sep : List Char) :
    ∀ (xs : List (List Char)), (∀ x ∈ xs, 1 ≤ x.length) → xs.length ≤ (joinSep sep xs).length := by
  intro xs
  induction xs with
  | nil => intro _; simp [joinSep]
  | cons x ys ih =>
    intro h
    cases ys with
    | nil =>
      simpa [joinSep] using h x (List.mem_cons_self _ _)
    | cons y zs =>
      have hx := h x (List.mem_cons_self _ _)
      have hrec := ih (fun z hz => h z (List.mem_cons_of_mem _ hz))
      simp only [joinSep, List.length_append, List.length_cons] at hrec ⊢
      omega

/-- Explicit character-level form of a serialized entry. -/
theorem jsonEntryL_explicit (e : AppEntry) (rest : List Char) :
    jsonEntryL e ++ rest =
      '\x7b' :: '\n' :: ' ' :: ' ' :: ' ' :: ' ' :: '\"' :: 'r' :: 'a' :: 'n' :: 'k' :: '\"' :: ':' :: ' ' ::
        (natToDec e.rank ++
          (',' :: '\n' :: ' ' :: ' ' :: ' ' :: ' ' :: '\"' :: 'a' :: 'p' :: 'p' :: '_' :: 'i' :: 'd' :: '\"' :: ':' :: ' ' ::
            (jsonStrL e.app_id.data ++
              (',' :: '\n' :: ' ' :: ' ' :: ' ' :: ' ' :: '\"' :: 't' :: 'i' :: 't' :: 'l' :: 'e' :: '\"' :: ':' :: ' ' ::
                (jsonStrL e.title.data ++
                  ('\n' :: ' ' :: ' ' :: '\x7d' :: rest)))))) := by
  simp [jsonEntryL, List.append_assoc]

/-- One-step unfolding of `parseItems` at positive fuel. -/
theorem parseItems_succ (fuel : Nat) (s : List Char) :
    parseItems (fuel + 1) s =
      match parseObject (s.length + 1) s with
      | none => none
      | some (obj, r) =>
        match skipWs r with
        | ',' :: r2 => (parseItems fuel r2).map (fun p => (obj :: p.1, p.2))
        | ']' :: r2 => some ([obj], r2)
        | _ => none := rfl

/-- Parsing the comma-separated serialized entries up to the closing
bracket. -/
theorem parseItems_round :
    ∀ (es : List AppEntry) (fuel : Nat) (pre tail : List Char),
      es ≠ [] → es.length ≤ fuel → (∀ c ∈ pre, jsonWs c = true) →
      parseItems fuel
          (pre ++ (joinSep ",\n  ".data (es.map jsonEntryL) ++ ('\n' :: ']' :: tail))) =
        some (es.map entryObj, tail) := by
  intro es
  induction es with
  | nil => intro fuel pre tail hne; exact absurd rfl hne
  | cons e es ih =>
    intro fuel pre tail _ hfuel hpre
    obtain ⟨f, rfl⟩ : ∃ f, fuel = f + 1 :=
      ⟨fuel - 1, by simp only [List.length_cons] at hfuel; omega⟩
    rw [parseItems_succ]
    have hwn : jsonWs '\n' = true := by decide
    have hwsp : jsonWs ' ' = true := by decide
    cases es with
    | nil =>
      simp only [List.map_cons, List.map_nil, joinSep]
      have hfobj : 3 ≤ (pre ++ (jsonEntryL e ++ ('\n' :: ']' :: tail))).length + 1 := by
        have h14 := jsonEntryL_len e
        simp only [List.length_append, List.length_cons]
        omega
      rw [parseObject_entry e ('\n' :: ']' :: tail) _ hfobj pre hpre]
      simp only [skipWs_cons_ws hwn,
        skipWs_cons_not_ws (show jsonWs ']' = false from by decide)]
      rfl
    | cons e2 es2 =>
      have hsep : ",\n  ".data = [',', '\n', ' ', ' '] := rfl
      simp only [List.map_cons, joinSep, hsep, List.append_assoc, List.cons_append,
        List.nil_append]
      have hfobj : 3 ≤ (pre ++ (jsonEntryL e ++
          (',' :: '\n' :: ' ' :: ' ' ::
            (joinSep [',', '\n', ' ', ' '] (jsonEntryL e2 :: es2.map jsonEntryL) ++
              '\n' :: ']' :: tail)))).length + 1 := by
        have h14 := jsonEntryL_len e
        simp only [List.length_append, List.length_cons]
        omega
      rw [parseObject_entry e
        (',' :: '\n' :: ' ' :: ' ' ::
          (joinSep [',', '\n', ' ', ' '] (jsonEntryL e2 :: es2.map jsonEntryL) ++
            '\n' :: ']' :: tail)) _ hfobj pre hpre]
      simp only [skipWs_cons_not_ws (show jsonWs ',' = false from by decide)]
      have hstep := ih f ['\n', ' ', ' '] tail (by simp) (by
        simp only [List.length_cons] at hfuel ⊢
        omega) (by decide)
      simp only [List.map_cons, joinSep, hsep, List.append_assoc, List.cons_append,
        List.nil_append] at hstep
      rw [hstep]
      rfl


/-- Parsing the whole JSON document the tool emits. -/
theorem parseJsonTopArray_output (es : List AppEntry) :
    parseJsonTopArray (output_json es).data = some (es.map entryObj) := by
  cases es with
  | nil => decide
  | cons e es' =>
    have hdata : (output_json (e :: es')).data =
        '[' :: ('\n' :: ' ' :: ' ' ::
          (joinSep ",\n  ".data ((e :: es').map jsonEntryL) ++ ('\n' :: ']' :: ['\n']))) := by
      simp [output_json, List.append_assoc]
    rw [hdata]
    have hX : ∃ X, joinSep ",\n  ".data ((e :: es').map jsonEntryL) ++ ('\n' :: ']' :: ['\n']) =
        jsonEntryL e ++ X := by
      cases es' with
      | nil => exact ⟨'\n' :: ']' :: ['\n'], by simp [joinSep]⟩
      | cons e2 es2 =>
        exact ⟨",\n  ".data ++ (joinSep ",\n  ".data ((e2 :: es2).map jsonEntryL) ++
          ('\n' :: ']' :: ['\n'])), by simp [joinSep, List.append_assoc]⟩
    obtain ⟨X, hX⟩ := hX
    have hwn : jsonWs '\n' = true := by decide
    have hwsp : jsonWs ' ' = true := by decide
    have hskipR : skipWs ('\n' :: ' ' :: ' ' ::
        (joinSep ",\n  ".data ((e :: es').map jsonEntryL) ++ ('\n' :: ']' :: ['\n']))) =
        '\x7b' :: '\n' :: ' ' :: ' ' :: ' ' :: ' ' :: '\"' :: 'r' :: 'a' :: 'n' :: 'k' :: '\"' :: ':' :: ' ' ::
          (natToDec e.rank ++
            (',' :: '\n' :: ' ' :: ' ' :: ' ' :: ' ' :: '\"' :: 'a' :: 'p' :: 'p' :: '_' :: 'i' :: 'd' :: '\"' :: ':' :: ' ' ::
              (jsonStrL e.app_id.data ++
                (',' :: '\n' :: ' ' :: ' ' :: ' ' :: ' ' :: '\"' :: 't' :: 'i' :: 't' :: 'l' :: 'e' :: '\"' :: ':' :: ' ' ::
                  (jsonStrL e.title.data ++
                    ('\n' :: ' ' :: ' ' :: '\x7d' :: X)))))) := by
      rw [skipWs_cons_ws hwn, skipWs_cons_ws hwsp, skipWs_cons_ws hwsp, hX,
        jsonEntryL_explicit]
      exact skipWs_cons_not_ws (by decide)
    unfold parseJsonTopArray
    rw [skipWs_cons_not_ws (show jsonWs '[' = false from by decide)]
    simp only [hskipR]
    rw [if_neg (show ¬(('\x7b' : Char) = ']') from by decide)]
    have hlen : (e :: es').length ≤
        ('[' :: ('\n' :: ' ' :: ' ' ::
          (joinSep ",\n  ".data ((e :: es').map jsonEntryL) ++ ('\n' :: ']' :: ['\n'])))).length + 1 := by
      have hj := joinSep_ge1 ",\n  ".data ((e :: es').map jsonEntryL)
        (by
          intro x hx
          obtain ⟨a, -, rfl⟩ := List.mem_map.mp hx
          have := jsonEntryL_len a
          omega)
      simp only [List.length_cons, List.length_append, List.length_map] at hj ⊢
      omega
    have hri := parseItems_round (e :: es') _ ['\n', ' ', ' '] ['\n'] (by simp) hlen (by decide)
    simp only [List.cons_append, List.nil_append] at hri
    rw [hri]
    rfl


theorem objTuple_entryObj (e : AppEntry) :
    objTuple (entryObj e) = some ((e.rank : Int), e.app_id, e.title) := by
  simp [objTuple, entryObj, jlookup]

theorem objTuples_map (es : List AppEntry) :
    objTuples (es.map entryObj) =
      some (es.map (fun e => ((e.rank : Int), e.app_id, e.title))) := by
  induction es with
  | nil => rfl
  | cons e es ih =>
    simp only [List.map_cons, objTuples, objTuple_entryObj e, ih]

/-- The JSON half of the round trip. -/
theorem parseJsonEntries_output (es : List AppEntry) :
    parseJsonEntries (output_json es) =
      some (es.map (fun e => ((e.rank : Int), e.app_id, e.title))) := by
  unfold parseJsonEntries
  rw [parseJsonTopArray_output]
  exact objTuples_map es

/-! ### CSV writing round-trips with CSV parsing -/

theorem parseQuotedBody_round :
    ∀ (f rest : List Char), (∀ c, rest.head? = some c → ¬(c = '\"')) →
      parseQuotedBody (csvEscapeChars f ++ '\"' :: rest) = some (f, rest) := by
  intro f
  induction f with
  | nil =>
    intro rest hrest
    show parseQuotedBody ('\"' :: rest) = some ([], rest)
    rw [parseQuotedBody.eq_def]
    cases rest with
    | nil => simp
    | cons c2 r2 =>
      have := hrest c2 rfl
      simp [this]
  | cons c f ih =>
    intro rest hrest
    by_cases hc : c = '\"'
    · subst hc
      show parseQuotedBody (('\"' :: '\"' :: []) ++ (csvEscapeChars f ++ '\"' :: rest)) =
        some ('\"' :: f, rest)
      rw [show (('\"' :: '\"' :: []) ++ (csvEscapeChars f ++ '\"' :: rest)) =
        '\"' :: '\"' :: (csvEscapeChars f ++ '\"' :: rest) from rfl]
      rw [parseQuotedBody.eq_def]
      simp only [if_pos rfl]
      rw [ih rest hrest]
      rfl
    · rw [show csvEscapeChars (c :: f) = (if c == '\"' then ['\"', '\"'] else [c]) ++ csvEscapeChars f from rfl]
      rw [if_neg (by simpa using hc)]
      rw [show (([c] ++ csvEscapeChars f) ++ '\"' :: rest) = c :: (csvEscapeChars f ++ '\"' :: rest) from by simp]
      rw [parseQuotedBody.eq_def]
      simp only [if_neg hc]
      rw [ih rest hrest]
      rfl

theorem csvSpecial_false_of_not (c : Char) (h1 : ¬(c = ',')) (h2 : ¬(c = '\r'))
    (h3 : ¬(c = '\n')) : csvSpecial c = false := by
  simp [csvSpecial, h1, h2, h3]

theorem parseCsvField_round (f rest : List Char)
    (hrest : rest = [] ∨ (∃ r', rest = ',' :: r') ∨ (∃ r', rest = '\r' :: r')) :
    parseCsvField (csvFieldL f ++ rest) = some (f, rest) := by
  have hrestq : ∀ c, rest.head? = some c → ¬(c = '\"') := by
    intro c hc
    rcases hrest with rfl | ⟨r', rfl⟩ | ⟨r', rfl⟩
    · cases hc
    · cases hc; decide
    · cases hc; decide
  by_cases hq : csvQuoteNeeded f = true
  · rw [show csvFieldL f = '\"' :: (csvEscapeChars f ++ ['\"']) from by simp [csvFieldL, hq]]
    rw [show (('\"' :: (csvEscapeChars f ++ ['\"'])) ++ rest) =
      '\"' :: (csvEscapeChars f ++ '\"' :: rest) from by simp]
    rw [parseCsvField.eq_def]
    simp only [if_pos rfl]
    exact parseQuotedBody_round f rest hrestq
  · have hq' : csvQuoteNeeded f = false := by
      cases h : csvQuoteNeeded f
      · rfl
      · exact absurd h hq
    have hnospec : ∀ c ∈ f, (!csvSpecial c) = true := by
      intro c hc
      have : ¬(c = ',' ∨ c = '\"' ∨ c = '\r' ∨ c = '\n') := by
        intro hor
        have : csvQuoteNeeded f = true := by
          unfold csvQuoteNeeded
          rw [List.any_eq_true]
          refine ⟨c, hc, ?_⟩
          rcases hor with rfl | rfl | rfl | rfl <;> decide
        rw [this] at hq'
        cases hq'
      push_neg at this
      simp [csvSpecial_false_of_not c this.1 this.2.2.1 this.2.2.2]
    have hreststop : ∀ c, rest.head? = some c → (!csvSpecial c) = false := by
      intro c hc
      rcases hrest with rfl | ⟨r', rfl⟩ | ⟨r', rfl⟩
      · cases hc
      · cases hc; decide
      · cases hc; decide
    obtain ⟨htake, hdrop⟩ := takeWhile_append_all f rest hnospec hreststop
    rw [show csvFieldL f = f from by simp [csvFieldL, hq']]
    cases hf : f with
    | nil =>
      rcases hrest with rfl | ⟨r', rfl⟩ | ⟨r', rfl⟩
      · rfl
      · rw [parseCsvField.eq_def]
        simp [show csvSpecial ',' = true from by decide]
      · rw [parseCsvField.eq_def]
        simp [show csvSpecial '\r' = true from by decide]
    | cons c f' =>
      have hcq : ¬(c = '\"') := by
        intro hc
        subst hc
        have : csvQuoteNeeded f = true := by
          unfold csvQuoteNeeded
          rw [List.any_eq_true]
          exact ⟨'\"', by rw [hf]; exact List.mem_cons_self _ _, by decide⟩
        rw [this] at hq'
        cases hq'
      rw [hf] at htake hdrop
      show parseCsvField ((c :: f') ++ rest) = some (c :: f', rest)
      rw [parseCsvField.eq_def]
      simp only [List.cons_append, if_neg hcq]
      rw [show (c :: (f' ++ rest)) = (c :: f') ++ rest from rfl, htake, hdrop]

/-- One-step unfolding of `parseCsvRecord` at positive fuel. -/
theorem parseCsvRecord_succ (fuel : Nat) (s : List Char) :
    parseCsvRecord (fuel + 1) s =
      match parseCsvField s with
      | none => none
      | some (f, r) =>
        match r with
        | ',' :: r2 => (parseCsvRecord fuel r2).map (fun p => (String.mk f :: p.1, p.2))
        | '\r' :: '\n' :: r2 => some ([String.mk f], r2)
        | [] => some ([String.mk f], [])
        | _ => none := rfl

theorem parseCsvRecord_round :
    ∀ (fs : List (List Char)) (fuel : Nat) (rest : List Char), fs ≠ [] → fs.length ≤ fuel →
      parseCsvRecord fuel (csvRowL fs ++ rest) = some (fs.map String.mk, rest) := by
  intro fs
  induction fs with
  | nil => intro fuel rest hne; exact absurd rfl hne
  | cons f fs ih =>
    intro fuel rest _ hfuel
    obtain ⟨k, rfl⟩ : ∃ k, fuel = k + 1 :=
      ⟨fuel - 1, by simp only [List.length_cons] at hfuel; omega⟩
    rw [parseCsvRecord_succ]
    cases fs with
    | nil =>
      rw [show csvRowL [f] ++ rest = csvFieldL f ++ ('\r' :: '\n' :: rest) from by
        simp [csvRowL, joinSep]]
      rw [parseCsvField_round f _ (Or.inr (Or.inr ⟨'\n' :: rest, rfl⟩))]
      rfl
    | cons f2 fs2 =>
      rw [show csvRowL (f :: f2 :: fs2) ++ rest =
        csvFieldL f ++ (',' :: (csvRowL (f2 :: fs2) ++ rest)) from by
          simp [csvRowL, joinSep, List.append_assoc]]
      rw [parseCsvField_round f _ (Or.inr (Or.inl ⟨csvRowL (f2 :: fs2) ++ rest, rfl⟩))]
      have hstep := ih k rest (by simp) (by
        simp only [List.length_cons] at hfuel ⊢
        omega)
      show (parseCsvRecord k (csvRowL (f2 :: fs2) ++ rest)).map
          (fun p => (String.mk f :: p.1, p.2)) =
        some (List.map String.mk (f :: f2 :: fs2), rest)
      rw [hstep]
      rfl


theorem csvRowL_ne_nil (fs : List (List Char)) : csvRowL fs ≠ [] := by
  simp [csvRowL]

theorem csvRowL_len_ge2 (fs : List (List Char)) : 2 ≤ (csvRowL fs).length := by
  simp [csvRowL, List.length_append]

/-- A chunk list is at most one longer than its join with a non-empty
separator. -/
theorem joinSep_ge_sub1 (sep : List Char) (hsep : 1 ≤ sep.length) :
    ∀ (xs : List (List Char)), xs.length ≤ (joinSep sep xs).length + 1 := by
  intro xs
  induction xs with
  | nil => simp [joinSep]
  | cons x ys ih =>
    cases ys with
    | nil => simp [joinSep]
    | cons y zs =>
      simp only [joinSep, List.length_append, List.length_cons] at ih ⊢
      omega

theorem fields_le_csvRowL (fs : List (List Char)) : fs.length ≤ (csvRowL fs).length := by
  have h := joinSep_ge_sub1 [','] (by simp) (fs.map csvFieldL)
  simp only [List.length_map] at h
  simp only [csvRowL, List.length_append, List.length_cons, List.length_map]
  omega

theorem rows_le_flatten :
    ∀ (rs : List (List (List Char))), rs.length ≤ ((rs.map csvRowL).flatten).length := by
  intro rs
  induction rs with
  | nil => simp
  | cons r rs ih =>
    have h2 := csvRowL_len_ge2 r
    simp only [List.map_cons, List.flatten_cons, List.length_append, List.length_cons]
    omega

/-- One-step unfolding of `parseCsvRecords` at positive fuel. -/
theorem parseCsvRecords_succ (fuel : Nat) (s : List Char) :
    parseCsvRecords (fuel + 1) s =
      if s = [] then some []
      else
        match parseCsvRecord (s.length + 1) s with
        | none => none
        | some (fs, r) => (parseCsvRecords fuel r).map (fun rs => fs :: rs) := rfl

theorem parseCsvRecords_round :
    ∀ (rs : List (List (List Char))) (fuel : Nat),
      (∀ r ∈ rs, r ≠ []) → rs.length < fuel →
      parseCsvRecords fuel ((rs.map csvRowL).flatten) =
        some (rs.map (fun r => r.map String.mk)) := by
  intro rs
  induction rs with
  | nil =>
    intro fuel _ hf
    obtain ⟨k, rfl⟩ : ∃ k, fuel = k + 1 := ⟨fuel - 1, by omega⟩
    rw [parseCsvRecords_succ]
    simp
  | cons r rs ih =>
    intro fuel hne hf
    obtain ⟨k, rfl⟩ : ∃ k, fuel = k + 1 := ⟨fuel - 1, by omega⟩
    rw [parseCsvRecords_succ]
    simp only [List.map_cons, List.flatten_cons]
    rw [if_neg (by
      intro h
      exact csvRowL_ne_nil r (List.append_eq_nil.mp h).1)]
    rw [parseCsvRecord_round r _ ((rs.map csvRowL).flatten) (hne r (List.mem_cons_self _ _))
      (by
        have h1 := fields_le_csvRowL r
        simp only [List.length_append]
        omega)]
    show (parseCsvRecords k ((rs.map csvRowL).flatten)).map
        (fun rs2 => List.map String.mk r :: rs2) =
      some (List.map String.mk r :: rs.map (fun x => x.map String.mk))
    rw [ih k (fun x hx => hne x (List.mem_cons_of_mem _ hx)) (by
      simp only [List.length_cons] at hf
      omega)]
    rfl

/-- The emitted CSV document is the flattened list of rendered records. -/
theorem output_csv_data (es : List AppEntry) :
    (output_csv es).data =
      (((["rank".data, "app_id".data, "title".data] : List (List Char)) ::
        es.map (fun e => [natToDec e.rank, e.app_id.data, e.title.data])).map csvRowL).flatten := by
  simp [output_csv, List.map_map]
  rfl

theorem rowTuple_entry (e : AppEntry) :
    rowTuple [String.mk (natToDec e.rank), e.app_id, e.title] =
      some ((e.rank : Int), e.app_id, e.title) := by
  show (match parseIntTok (String.mk (natToDec e.rank)).data with
    | some (i, rest) => if rest = [] then some (i, e.app_id, e.title) else none
    | none => none) = some ((e.rank : Int), e.app_id, e.title)
  rw [show (String.mk (natToDec e.rank)).data = natToDec e.rank from rfl]
  have h := @parseIntTok_natToDec e.rank ([] : List Char)
    (by intro c hc; cases hc)
  rw [List.append_nil] at h
  rw [h]
  rfl

theorem rowTuples_map (es : List AppEntry) :
    rowTuples ((es.map (fun e => [natToDec e.rank, e.app_id.data, e.title.data])).map
        (fun r => r.map String.mk)) =
      some (es.map (fun e => ((e.rank : Int), e.app_id, e.title))) := by
  induction es with
  | nil => rfl
  | cons e es ih =>
    simp only [List.map_cons, List.map_nil, String_mk_data, rowTuples,
      rowTuple_entry e, ih]

/-- The CSV half of the round trip. -/
theorem parseCsvEntries_output (es : List AppEntry) :
    parseCsvEntries (output_csv es) =
      some (es.map (fun e => ((e.rank : Int), e.app_id, e.title))) := by
  unfold parseCsvEntries parseCsv
  rw [output_csv_data]
  have hlen2 : (output_csv es).length =
      ((((["rank".data, "app_id".data, "title".data] : List (List Char)) ::
        es.map (fun e => [natToDec e.rank, e.app_id.data, e.title.data])).map csvRowL).flatten).length := by
    rw [← output_csv_data]
    rfl
  rw [hlen2]
  rw [parseCsvRecords_round
    ((["rank".data, "app_id".data, "title".data] : List (List Char)) ::
      es.map (fun e => [natToDec e.rank, e.app_id.data, e.title.data])) _
    (by
      intro r hr
      rcases List.mem_cons.mp hr with rfl | hr'
      · simp
      · obtain ⟨a, -, rfl⟩ := List.mem_map.mp hr'
        simp)
    (Nat.lt_succ_of_le (rows_le_flatten _))]
  show (if List.map String.mk (["rank".data, "app_id".data, "title".data] : List (List Char)) =
      (["rank", "app_id", "title"] : List String) then
    rowTuples ((es.map (fun e => [natToDec e.rank, e.app_id.data, e.title.data])).map
      (fun r => r.map String.mk))
    else none) = some (es.map (fun e => ((e.rank : Int), e.app_id, e.title)))
  have hc : List.map String.mk (["rank".data, "app_id".data, "title".data] : List (List Char)) =
      (["rank", "app_id", "title"] : List String) := rfl
  rw [if_pos hc]
  exact rowTuples_map es


/-- C9: serializing M entries as JSON and parsing the output as JSON
yields exactly the M `(rank, app_id, title)` tuples in order, and
serializing as CSV (header row plus one row per entry) and reading it
back with the CSV reader yields the same tuples in the same order. -/
theorem format_parse_round_trip (entries : List AppEntry) :
    parseJsonEntries (output_json entries) =
      some (entries.map (fun e => ((e.rank : Int), e.app_id, e.title))) ∧
    parseCsvEntries (output_csv entries) =
      some (entries.map (fun e => ((e.rank : Int), e.app_id, e.title))) :=
  ⟨parseJsonEntries_output entries, parseCsvEntries_output entries⟩

end PlayStore
